import Mathlib

/-!
Verification of the s-rectangular robust Bellman update of craam2
(`src/craam/optimization/srect_gurobi.hpp` and `src/craam/definitions.hpp`).

The C++ code builds a linear program through the Gurobi API, solves it, and
extracts the objective, policy and per-constraint dual values.  We embed the
LP construction shallowly: an LP model is a list of variable bounds (in the
order the code adds variables), a list of linear constraints (in the order
the code adds them, each carrying the name string passed to `addConstr`),
and the objective expression passed to `setObjective` (which in Gurobi
replaces any objective coefficients previously given to `addVar`, so the
`-kappa` coefficient passed when `lambda` is created is overwritten).
`double` values are modelled as exact rationals.  The external Gurobi solve
is modelled as an oracle value holding the reported status together with the
primal/dual values exposed by the model attributes, when a solution is
available.
-/

namespace craam

/-- `numvec` of `definitions.hpp`: a vector of `prec_t` values. -/
abbrev numvec := List ℚ

/-- `numvecvec` of `definitions.hpp`: a vector of numeric vectors. -/
abbrev numvecvec := List (List ℚ)

/-- `EPSILON` of `definitions.hpp`: default solution precision `1e-6`. -/
def EPSILON : ℚ := 1 / 1000000

/-- Loop of `is_probability_dist` (definitions.hpp, lines 236-245): the sum
is seeded with the first element, each *subsequent* element is rejected when
negative and added to the sum, and finally `|sum - 1| < EPSILON` is tested. -/
def is_probability_dist_loop (sum : ℚ) : List ℚ → Bool
  | [] => |sum - 1| < EPSILON
  | y :: ys => if y < 0 then false else is_probability_dist_loop (sum + y) ys

/-- `is_probability_dist` (definitions.hpp): empty ranges are rejected;
otherwise the loop above runs with the sum seeded by the first element,
whose sign is never tested. -/
def is_probability_dist : List ℚ → Bool
  | [] => false
  | x :: rest => is_probability_dist_loop x rest

/-! ## A shallow embedding of the Gurobi LP interface -/

/-- Sense of a linear constraint (`<=` from operator overloading,
`GRB_EQUAL` from the explicit `addConstr` call). -/
inductive Rel where
  | le : Rel
  | eq : Rel
deriving DecidableEq

/-- One linear constraint: sparse terms (variable index, coefficient), a
sense, a right-hand side, and the name string passed to `addConstr`
(empty for the unnamed `d[i] == policy_eval[i]` constraints). -/
structure Constr where
  terms : List (Nat × ℚ)
  rel : Rel
  rhs : ℚ
  cname : String
deriving DecidableEq

/-- Bounds of one variable; `none` stands for an infinite bound.  Gurobi's
default lower bound (when `addVars` receives a null pointer) is `0`. -/
structure VarB where
  lb : Option ℚ
  ub : Option ℚ
deriving DecidableEq

/-- An LP model: variables in order of creation, constraints in order of
creation, and the (maximization) objective terms. -/
structure Model where
  vars : List VarB
  constrs : List Constr
  objTerms : List (Nat × ℚ)

/-- Value of a sparse linear expression under an assignment. -/
def evalTerms (t : List (Nat × ℚ)) (v : Nat → ℚ) : ℚ :=
  (t.map (fun p => p.2 * v p.1)).sum

/-- One constraint holds under an assignment. -/
def satConstr (c : Constr) (v : Nat → ℚ) : Prop :=
  match c.rel with
  | Rel.le => evalTerms c.terms v ≤ c.rhs
  | Rel.eq => evalTerms c.terms v = c.rhs

/-- A value respects a variable's bounds. -/
def inBounds (b : VarB) (q : ℚ) : Prop :=
  (match b.lb with | none => True | some l => l ≤ q) ∧
  (match b.ub with | none => True | some u => q ≤ u)

/-- Feasibility of an assignment for a model. -/
def Feasible (m : Model) (v : Nat → ℚ) : Prop :=
  (∀ i, i < m.vars.length → inBounds (m.vars.getD i ⟨none, none⟩) (v i)) ∧
  (∀ c ∈ m.constrs, satConstr c v)

/-- Objective value of an assignment. -/
def objEval (m : Model) (v : Nat → ℚ) : ℚ := evalTerms m.objTerms v

/-- `val` is the optimal value of the (maximization) model: attained by some
feasible assignment and an upper bound on all of them. -/
def IsOptimalValue (m : Model) (val : ℚ) : Prop :=
  (∃ v, Feasible m v ∧ objEval m v = val) ∧
  (∀ v, Feasible m v → objEval m v ≤ val)

instance (c : Constr) (v : Nat → ℚ) : Decidable (satConstr c v) := by
  unfold satConstr; cases c.rel <;> infer_instance

instance (b : VarB) (q : ℚ) : Decidable (inBounds b q) := by
  unfold inBounds
  cases b with
  | mk lb ub => cases lb <;> cases ub <;> exact instDecidableAnd

instance (m : Model) (v : Nat → ℚ) : Decidable (Feasible m v) := by
  unfold Feasible; exact instDecidableAnd

/-! ## Variable layout of the two s-rectangular models

Both `srect_l1_solve_gurobi` and `srect_linf_solve_gurobi` create, in this
order: `nactions` free variables `x`, `nstateactions` variables `yp`,
`nstateactions` variables `yn` (default bounds `[0, inf)`), one variable
`lambda` with bounds `[0, inf)`, and `nactions` variables `d` with bounds
`[0, inf)`.  `A` is the number of actions, `N` the total number of
action-state pairs. -/

/-- Index of `x[a]`. -/
def xIdx (a : Nat) : Nat := a

/-- Index of `yp[i]` (absolute action-state index `i`). -/
def ypIdx (A i : Nat) : Nat := A + i

/-- Index of `yn[i]`. -/
def ynIdx (A N i : Nat) : Nat := A + N + i

/-- Index of `lambda`. -/
def lamIdx (A N : Nat) : Nat := A + 2 * N

/-- Index of `d[a]`. -/
def dIdx (A N a : Nat) : Nat := A + 2 * N + 1 + a

/-- `statecounts[a]`: number of transition states of action `a`
(`pbar[a].size()`). -/
def scount (pbar : numvecvec) (a : Nat) : Nat := (pbar.getD a []).length

/-- Running absolute index at the start of action `a`'s states (the value of
the loop counter `i` when `actionid = a` starts). -/
def aofs (pbar : numvecvec) (a : Nat) : Nat :=
  ∑ b in Finset.range a, scount pbar b

/-- `nstateactions`: total number of action-state pairs. -/
def nsa (pbar : numvecvec) : Nat :=
  ∑ a in Finset.range pbar.length, scount pbar a

/-- `z[a][s]` as read by the code (total model of vector indexing). -/
def zq (z : numvecvec) (a s : Nat) : ℚ := (z.getD a []).getD s 0

/-- Effective weight `w[a][s]` used by the L1 model:
`w.size() > 0 ? w[actionid][stateid] : 1.0`. -/
def wq (w : numvecvec) (a s : Nat) : ℚ :=
  if 0 < w.length then (w.getD a []).getD s 0 else 1

/-- The variable list shared by both models (in `addVars` order). -/
def srectVars (A N : Nat) : List VarB :=
  List.replicate A ⟨none, none⟩ ++
    (List.replicate N ⟨some 0, none⟩ ++
      (List.replicate N ⟨some 0, none⟩ ++
        ([⟨some 0, none⟩] ++ List.replicate A ⟨some 0, none⟩)))

/-! ## The L1 model (`srect_l1_solve_gurobi`, lines 102-170)

Constraint order follows the code: the policy constraints first (either the
pin constraints `d[i] == policy_eval[i]`, or the single constraint
`1^T d = 1` named `"pi"`), then for each action and each of its states the
constraint named `"P"` followed by the constraint named `"psi"`.

The `"P"` constraint `x[a] - yp[i] + yn[i] <= d[a] * z[a][s]` is stored in
the normalized form `x[a] - yp[i] + yn[i] - z[a][s] * d[a] <= 0`, and the
objective accumulates, per action, first the `x[a]` term and then the
`-pbar[a][s] * yp[i]` and `pbar[a][s] * yn[i]` terms, with the final
`-kappa * lambda` term appended by `objective += -lambda * kappa`. -/

/-- The `"P"` constraint of pair `(a, s)` (shared by both formulations). -/
def pCon (z pbar : numvecvec) (a s : Nat) : Constr :=
  let A := pbar.length
  let N := nsa pbar
  ⟨[(xIdx a, 1), (ypIdx A (aofs pbar a + s), -1), (ynIdx A N (aofs pbar a + s), 1),
    (dIdx A N a, -(zq z a s))], Rel.le, 0, "P"⟩

/-- The `"psi"` constraint of pair `(a, s)` in the L1 model:
`-lambda * weight + yp[i] + yn[i] <= 0`. -/
def psiCon (pbar w : numvecvec) (a s : Nat) : Constr :=
  let A := pbar.length
  let N := nsa pbar
  ⟨[(lamIdx A N, -(wq w a s)), (ypIdx A (aofs pbar a + s), 1),
    (ynIdx A N (aofs pbar a + s), 1)], Rel.le, 0, "psi"⟩

/-- The policy constraints of the L1 model: pins when `policy_eval` is
supplied, the `"pi"` normalization otherwise. -/
def l1PolicyCons (pbar : numvecvec) (policy_eval : numvec) : List Constr :=
  let A := pbar.length
  let N := nsa pbar
  if policy_eval.isEmpty then
    [⟨(List.range A).map (fun a => (dIdx A N a, 1)), Rel.eq, 1, "pi"⟩]
  else
    (List.range policy_eval.length).map
      (fun i => ⟨[(dIdx A N i, 1)], Rel.eq, policy_eval.getD i 0, ""⟩)

/-- The interleaved `"P"`/`"psi"` constraints of the L1 main loop. -/
def l1LoopCons (z pbar w : numvecvec) : List Constr :=
  ((List.range pbar.length).map (fun a =>
    ((List.range (scount pbar a)).map (fun s =>
      [pCon z pbar a s, psiCon pbar w a s])).flatten)).flatten

/-- Objective terms of the L1 model (also those of the L-infinity model,
whose loop accumulates the same expression). -/
def srectObjTerms (pbar : numvecvec) (kappa : ℚ) : List (Nat × ℚ) :=
  let A := pbar.length
  let N := nsa pbar
  ((List.range A).map (fun a =>
    (xIdx a, (1 : ℚ)) :: ((List.range (scount pbar a)).map (fun s =>
      [(ypIdx A (aofs pbar a + s), -(zq pbar a s)),
       (ynIdx A N (aofs pbar a + s), zq pbar a s)])).flatten)).flatten
  ++ [(lamIdx A N, -kappa)]

/-- The LP model built by `srect_l1_solve_gurobi`. -/
def srect_l1_model (z pbar w : numvecvec) (kappa : ℚ) (policy_eval : numvec) :
    Model :=
  ⟨srectVars pbar.length (nsa pbar),
   l1PolicyCons pbar policy_eval ++ l1LoopCons z pbar w,
   srectObjTerms pbar kappa⟩

/-! ## The L-infinity model (`srect_linf_solve_gurobi`, lines 293-348)

Per action: all `"P"` constraints of its states, then one `"theta"`
constraint `-lambda * weight + sum_s (yp[i] + yn[i]) <= 0` where `weight`
is hard-coded to `1.0` (the line using `w` is commented out in the source).
The `"policy"` normalization constraint is added after the loop. -/

/-- The `"theta"` constraint of action `a`. -/
def thetaCon (pbar : numvecvec) (a : Nat) : Constr :=
  let A := pbar.length
  let N := nsa pbar
  ⟨(lamIdx A N, -1) ::
    ((List.range (scount pbar a)).map (fun s =>
      [(ypIdx A (aofs pbar a + s), (1 : ℚ)),
       (ynIdx A N (aofs pbar a + s), (1 : ℚ))])).flatten,
   Rel.le, 0, "theta"⟩

/-- The `"policy"` constraint `1^T d = 1` of the L-infinity model. -/
def linfPolicyCon (pbar : numvecvec) : Constr :=
  ⟨(List.range pbar.length).map
     (fun a => (dIdx pbar.length (nsa pbar) a, (1 : ℚ))), Rel.eq, 1, "policy"⟩

/-- The LP model built by `srect_linf_solve_gurobi`.  The parameter `w` is
accepted (as in the source) but never used: the per-action weight is fixed
at `1.0`. -/
def srect_linf_model (z pbar : numvecvec) (kappa : ℚ) (_w : numvecvec) :
    Model :=
  ⟨srectVars pbar.length (nsa pbar),
   ((List.range pbar.length).map (fun a =>
     ((List.range (scount pbar a)).map (fun s => pCon z pbar a s))
       ++ [thetaCon pbar a])).flatten
   ++ [linfPolicyCon pbar],
   srectObjTerms pbar kappa⟩

/-! ## The external solve and the extraction of the solution -/

/-- Status reported by `model.get(GRB_IntAttr_Status)`.  `suboptimal` is
Gurobi's `SUBOPTIMAL` ("unable to satisfy optimality tolerances; a
sub-optimal solution is available"). -/
inductive Status where
  | optimal : Status
  | infeasible : Status
  | unbounded : Status
  | suboptimal : Status
deriving DecidableEq

/-- The values a solved model exposes: primal values (`GRB_DoubleAttr_X`,
by variable index), duals (`GRB_DoubleAttr_Pi`, by constraint index) and
the objective (`GRB_DoubleAttr_ObjVal`). -/
structure Sol where
  xv : Nat → ℚ
  piv : Nat → ℚ
  objval : ℚ

/-- Outcome of `model.optimize()`: the status, and the solution attributes
when the solver makes them available (querying them with no solution
available raises a `GRBException`; Gurobi exposes them at `OPTIMAL` but
also, e.g., at `SUBOPTIMAL`). -/
structure GRBOutput where
  status : Status
  sol : Option Sol

/-- The `assert` statements of `srect_l1_solve_gurobi` (lines 88-89, 128,
131): outer shape agreement of `pbar`/`z`/`w`, and, when `policy_eval` is
supplied, its length and that it is a probability distribution.  No row of
`pbar` and no property of `kappa` is ever checked. -/
def l1_input_asserts (z pbar w : numvecvec) (policy_eval : numvec) : Bool :=
  (pbar.length == z.length) && (w.isEmpty || w.length == z.length) &&
  (policy_eval.isEmpty ||
    ((policy_eval.length == z.length) && is_probability_dist policy_eval))

/-- The `assert` statements of `srect_linf_solve_gurobi` (lines 276-277). -/
def linf_input_asserts (z pbar w : numvecvec) : Bool :=
  (pbar.length == z.length) && (w.isEmpty || w.length == z.length)

/-- Policy extraction: `policy[i] = d[i].get(GRB_DoubleAttr_X)`. -/
def extract_policy (A N : Nat) (s : Sol) : numvec :=
  (List.range A).map (fun a => s.xv (dIdx A N a))

/-- Duals of the constraints whose name equals `nm`, in constraint order,
mirroring the loop over `j < NumConstrs` that pushes
`getConstr(j).get(GRB_DoubleAttr_Pi)` when the name matches. -/
def dualsByName (cs : List Constr) (piv : Nat → ℚ) (j0 : Nat) (nm : String) :
    List ℚ :=
  match cs with
  | [] => []
  | c :: rest =>
      if c.cname = nm then piv j0 :: dualsByName rest piv (j0 + 1) nm
      else dualsByName rest piv (j0 + 1) nm

/-- Budgets of the L1 solution: duals of the `"psi"` constraints. -/
def l1_budgets (m : Model) (s : Sol) : numvec :=
  dualsByName m.constrs s.piv 0 "psi"

/-- Budgets of the L-infinity solution: `numvec budgets(nactions)` is
zero-initialized and filled, in order, with the duals of the `"theta"`
constraints (there are exactly `nactions` of them; the model of the
overflowing write is a truncation). -/
def linf_budgets (A : Nat) (m : Model) (s : Sol) : numvec :=
  let t := dualsByName m.constrs s.piv 0 "theta"
  t.take A ++ List.replicate (A - t.length) 0

/-- `srect_l1_solve_gurobi`: build the model, solve, fail when the status
is not `GRB_OPTIMAL` (`throw invalid_argument("Failed to solve the LP.")`),
otherwise read the policy, the `"psi"` duals and the objective.  The solver
outcome is passed as the oracle `out`. -/
def srect_l1_solve_gurobi (out : GRBOutput) (z pbar : numvecvec) (kappa : ℚ)
    (w : numvecvec := []) (policy_eval : numvec := []) :
    Except String (ℚ × numvec × numvec) :=
  if ¬ l1_input_asserts z pbar w policy_eval then Except.error "assert"
  else if out.status ≠ Status.optimal then
    Except.error "Failed to solve the LP."
  else
    match out.sol with
    | none => Except.error "GRBException"
    | some s =>
        let m := srect_l1_model z pbar w kappa policy_eval
        Except.ok (s.objval, extract_policy pbar.length (nsa pbar) s,
                   l1_budgets m s)

/-- `srect_linf_solve_gurobi`: build the model, solve, and extract with no
status check whatsoever — the code reads `GRB_DoubleAttr_X` right after
`optimize()` returns, whatever the reported status was. -/
def srect_linf_solve_gurobi (out : GRBOutput) (z pbar : numvecvec)
    (kappa : ℚ) (w : numvecvec := []) :
    Except String (ℚ × numvec × numvec) :=
  if ¬ linf_input_asserts z pbar w then Except.error "assert"
  else
    match out.sol with
    | none => Except.error "GRBException"
    | some s =>
        let m := srect_linf_model z pbar kappa w
        Except.ok (s.objval, extract_policy pbar.length (nsa pbar) s,
                   linf_budgets pbar.length m s)

/-! ## Semantic characterizations and derived notions -/

/-- Explicit form of feasibility for the L1 model (proved equivalent to
`Feasible` below): bounds of the variable families, the policy constraints,
and the `"P"` and `"psi"` inequalities. -/
structure L1Feas (z pbar w : numvecvec) (pe : numvec) (v : Nat → ℚ) : Prop where
  yp_nonneg : ∀ i, i < nsa pbar → 0 ≤ v (ypIdx pbar.length i)
  yn_nonneg : ∀ i, i < nsa pbar → 0 ≤ v (ynIdx pbar.length (nsa pbar) i)
  lam_nonneg : 0 ≤ v (lamIdx pbar.length (nsa pbar))
  d_nonneg : ∀ a, a < pbar.length → 0 ≤ v (dIdx pbar.length (nsa pbar) a)
  policy_sum : pe = [] →
    ∑ a in Finset.range pbar.length, v (dIdx pbar.length (nsa pbar) a) = 1
  policy_pin : ∀ a, a < pe.length →
    v (dIdx pbar.length (nsa pbar) a) = pe.getD a 0
  pcons : ∀ a, a < pbar.length → ∀ s, s < scount pbar a →
    v (xIdx a) - v (ypIdx pbar.length (aofs pbar a + s)) +
      v (ynIdx pbar.length (nsa pbar) (aofs pbar a + s)) -
      zq z a s * v (dIdx pbar.length (nsa pbar) a) ≤ 0
  psicons : ∀ a, a < pbar.length → ∀ s, s < scount pbar a →
    -(wq w a s) * v (lamIdx pbar.length (nsa pbar)) +
      v (ypIdx pbar.length (aofs pbar a + s)) +
      v (ynIdx pbar.length (nsa pbar) (aofs pbar a + s)) ≤ 0

/-- Explicit form of feasibility for the L-infinity model. -/
structure LinfFeas (z pbar : numvecvec) (v : Nat → ℚ) : Prop where
  yp_nonneg : ∀ i, i < nsa pbar → 0 ≤ v (ypIdx pbar.length i)
  yn_nonneg : ∀ i, i < nsa pbar → 0 ≤ v (ynIdx pbar.length (nsa pbar) i)
  lam_nonneg : 0 ≤ v (lamIdx pbar.length (nsa pbar))
  d_nonneg : ∀ a, a < pbar.length → 0 ≤ v (dIdx pbar.length (nsa pbar) a)
  policy_sum :
    ∑ a in Finset.range pbar.length, v (dIdx pbar.length (nsa pbar) a) = 1
  pcons : ∀ a, a < pbar.length → ∀ s, s < scount pbar a →
    v (xIdx a) - v (ypIdx pbar.length (aofs pbar a + s)) +
      v (ynIdx pbar.length (nsa pbar) (aofs pbar a + s)) -
      zq z a s * v (dIdx pbar.length (nsa pbar) a) ≤ 0
  thetacons : ∀ a, a < pbar.length →
    -(v (lamIdx pbar.length (nsa pbar))) +
      (∑ s in Finset.range (scount pbar a),
        (v (ypIdx pbar.length (aofs pbar a + s)) +
         v (ynIdx pbar.length (nsa pbar) (aofs pbar a + s)))) ≤ 0

/-- The objective formula the spec asserts for the L1 LP (section 4.2 of
the spec, with `y+ := yp` and `y- := yn` as fixed by the spec's own `"P"`
constraint `x_a − y+ + y- ≤ d_a z[a][s]`):
`Σ_a x_a − Σ_{a,s} pbar[a][s]·(y-_{a,s} − y+_{a,s}) − kappa·lambda`. -/
def spec_l1_objective (pbar : numvecvec) (kappa : ℚ) (v : Nat → ℚ) : ℚ :=
  (∑ a in Finset.range pbar.length, v (xIdx a)) -
    (∑ a in Finset.range pbar.length,
      ∑ s in Finset.range (scount pbar a),
        zq pbar a s * (v (ynIdx pbar.length (nsa pbar) (aofs pbar a + s)) -
          v (ypIdx pbar.length (aofs pbar a + s)))) -
    kappa * v (lamIdx pbar.length (nsa pbar))

/-- The objective the code actually builds (the amended formula):
`Σ_a x_a − Σ_{a,s} pbar[a][s]·(y+_{a,s} − y-_{a,s}) − kappa·lambda`,
i.e. the middle term of the spec's formula with the opposite sign. -/
def amended_l1_objective (pbar : numvecvec) (kappa : ℚ) (v : Nat → ℚ) : ℚ :=
  (∑ a in Finset.range pbar.length, v (xIdx a)) -
    (∑ a in Finset.range pbar.length,
      ∑ s in Finset.range (scount pbar a),
        zq pbar a s * (v (ypIdx pbar.length (aofs pbar a + s)) -
          v (ynIdx pbar.length (nsa pbar) (aofs pbar a + s)))) -
    kappa * v (lamIdx pbar.length (nsa pbar))

/-- The solver oracle solved this model to optimality: its reported primal
point is feasible, attains the reported objective, and no feasible point
does better. -/
def SolvedOptimally (m : Model) (s : Sol) : Prop :=
  Feasible m s.xv ∧ objEval m s.xv = s.objval ∧
    ∀ v, Feasible m v → objEval m v ≤ s.objval

/-! ## LP duality notions (for the budget duals)

The dual values Gurobi reports for an optimal solution of a maximization
LP whose variables all have upper bound `+infinity` satisfy: duals of `<=`
rows are non-negative, the dual column of a free variable equals its
objective coefficient, the dual column of a lower-bounded variable is at
least its objective coefficient, and a variable strictly above its lower
bound has a tight column (complementary slackness). -/

/-- Coefficient of variable `i` in a sparse term list. -/
def coeffIn (t : List (Nat × ℚ)) (i : Nat) : ℚ :=
  (t.map (fun p => if p.1 = i then p.2 else 0)).sum

/-- Objective coefficient of variable `i`. -/
def objCoeff (m : Model) (i : Nat) : ℚ := coeffIn m.objTerms i

/-- `sum_j u (j0 + j) * coeff of variable i in constraint j`, recursively
over the constraint list. -/
def colSumAux (cs : List Constr) (u : Nat → ℚ) (j0 i : Nat) : ℚ :=
  match cs with
  | [] => 0
  | c :: rest => u j0 * coeffIn c.terms i + colSumAux rest u (j0 + 1) i

/-- Dual column of variable `i` under dual values `u`. -/
def colSum (m : Model) (u : Nat → ℚ) (i : Nat) : ℚ :=
  colSumAux m.constrs u 0 i

/-- Dual feasibility for a maximization model whose variables have no
finite upper bounds (as in both s-rectangular models). -/
def DualFeasible (m : Model) (u : Nat → ℚ) : Prop :=
  (∀ j, j < m.constrs.length →
    (m.constrs.getD j ⟨[], Rel.le, 0, ""⟩).rel = Rel.le → 0 ≤ u j) ∧
  (∀ i, i < m.vars.length →
    ((m.vars.getD i ⟨none, none⟩).lb = none → colSum m u i = objCoeff m i) ∧
    ((m.vars.getD i ⟨none, none⟩).lb ≠ none → objCoeff m i ≤ colSum m u i))

/-- Complementary slackness between primal values `v` and dual values `u`:
a variable strictly above its lower bound has a tight dual column.  (For a
free variable the condition `lb.getD (v i) < v i` is vacuous.) -/
def ComplSlack (m : Model) (v u : Nat → ℚ) : Prop :=
  ∀ i, i < m.vars.length →
    (m.vars.getD i ⟨none, none⟩).lb.getD (v i) < v i →
    colSum m u i = objCoeff m i

/-- The weights of the `"psi"` constraints in constraint order (the weight
`w[a][s]`, or `1` when `w` is empty). -/
def psiWeights (pbar w : numvecvec) : List ℚ :=
  ((List.range pbar.length).map (fun a =>
    (List.range (scount pbar a)).map (fun s => wq w a s))).flatten

/-- Dot product of two lists (pairwise, up to the shorter length). -/
def dotl (xs ys : List ℚ) : ℚ := ((xs.zip ys).map (fun p => p.1 * p.2)).sum

/-! ## The non-robust value -/

/-- Largest element of a list (`0` for the empty list). -/
def maxD : List ℚ → ℚ
  | [] => 0
  | [x] => x
  | x :: y :: t => max x (maxD (y :: t))

/-- `z[a] · pbar[a]`: the non-robust value of action `a`. -/
def cval (z pbar : numvecvec) (a : Nat) : ℚ :=
  ∑ s in Finset.range (scount pbar a), zq z a s * zq pbar a s

/-- The non-robust value `max_a z[a]·pbar[a]` (equal to
`max_d Σ_a d_a·(z[a]·pbar[a])` over distributions `d`). -/
def nonrobustVal (z pbar : numvecvec) : ℚ :=
  maxD ((List.range pbar.length).map (cval z pbar))

/-- Index-level validity of `pbar`: every row of `pbar` is an exact
probability distribution. -/
def DistRows (pbar : numvecvec) : Prop :=
  ∀ a, a < pbar.length →
    (∀ s, s < scount pbar a → 0 ≤ zq pbar a s) ∧
    ∑ s in Finset.range (scount pbar a), zq pbar a s = 1

/-- `z` has the same (ragged) shape as `pbar`. -/
def ShapeOK (z pbar : numvecvec) : Prop :=
  z.length = pbar.length ∧
    ∀ a, a < pbar.length → (z.getD a []).length = scount pbar a

/-- All effective L1 weights are strictly positive (holds in particular
when `w` is omitted, since then every effective weight is `1`). -/
def PosWeights (w pbar : numvecvec) : Prop :=
  ∀ a, a < pbar.length → ∀ s, s < scount pbar a → 0 < wq w a s

/-- A list of reals is a probability distribution (exactly). -/
def IsDistL (d : List ℚ) : Prop := (∀ q ∈ d, 0 ≤ q) ∧ d.sum = 1

/-! ## An explicit optimal point for `kappa = 0`

With a zero budget the dual objective carries no `lambda` cost, so nature
cannot deviate: play the best action `k` deterministically, set `x = 0`,
split `d_k z[k][s]` into the positive parts `yn` and negative parts `yp`,
and make `lambda` large enough for the `"psi"`/`"theta"` rows. -/

/-- The action-tagged flattening of `z` along `pbar`'s shape: entry `i` of
the flat action-state enumeration is `(a, z[a][s])`. -/
def flatZ (z pbar : numvecvec) : List (Nat × ℚ) :=
  ((List.range pbar.length).map (fun a =>
    (List.range (scount pbar a)).map (fun s => (a, zq z a s)))).flatten

/-- The attaining assignment: action `k` is played deterministically and
`lambda = lam`. -/
def vstar (z pbar : numvecvec) (k : Nat) (lam : ℚ) : Nat → ℚ := fun j =>
  let A := pbar.length
  let N := nsa pbar
  if j < A then 0
  else if j < A + N then
    (let p := (flatZ z pbar).getD (j - A) (0, 0)
     if p.1 = k then max (-(p.2)) 0 else 0)
  else if j < A + 2 * N then
    (let p := (flatZ z pbar).getD (j - (A + N)) (0, 0)
     if p.1 = k then max p.2 0 else 0)
  else if j = A + 2 * N then lam
  else if j = A + 2 * N + 1 + k then 1 else 0

/-- A `lambda` value large enough for every `"psi"` row of the L1 model:
`sum_{a,s} |z[a][s]| / w[a][s]`. -/
def l1LamBig (z pbar w : numvecvec) : ℚ :=
  ∑ a in Finset.range pbar.length,
    ∑ s in Finset.range (scount pbar a), |zq z a s| / wq w a s

/-- A `lambda` value large enough for every `"theta"` row of the
L-infinity model: `sum_{a,s} |z[a][s]|`. -/
def linfLamBig (z pbar : numvecvec) : ℚ :=
  ∑ a in Finset.range pbar.length,
    ∑ s in Finset.range (scount pbar a), |zq z a s|

/-! ## Concrete data for witnesses and counterexamples -/

/-- The spec's concrete scenario: `z = [[1,0],[0,1]]`. -/
def zHalf : numvecvec := [[1, 0], [0, 1]]

/-- The spec's concrete scenario: `pbar = [[0.5,0.5],[0.5,0.5]]`. -/
def pbarHalf : numvecvec := [[1/2, 1/2], [1/2, 1/2]]

/-- An optimal assignment of both concrete `kappa = 0` models
(`x = 0`, `yn` carrying `z[0][0] = 1`, `lambda = 1`, `d = (1,0)`). -/
def vHalf : Nat → ℚ := fun j =>
  if j = 6 then 1 else if j = 10 then 1 else if j = 11 then 1 else 0

/-- The solver oracle for the concrete scenario. -/
def solHalf : Sol := ⟨vHalf, fun _ => 0, 1/2⟩

/-- A solution oracle with all attributes zero (used where the values are
irrelevant). -/
def solZero : Sol := ⟨fun _ => 0, fun _ => 0, 0⟩

/-- Assignment refuting the spec's L1 objective formula on the one-action,
one-state instance `z = [[0]]`, `pbar = [[1]]` (only `yn = 1`). -/
def vOneYn : Nat → ℚ := fun j => if j = 2 then 1 else 0

/-- `z` of the zero-weight counterexample to the `kappa = 0` claim. -/
def zZW : numvecvec := [[0, 1]]

/-- `pbar` of the zero-weight counterexample. -/
def pbarZW : numvecvec := [[1/2, 1/2]]

/-- `w` of the zero-weight counterexample: both weights zero, so the
`"psi"` rows pin `yp = yn = 0` even though `kappa = 0`. -/
def wZW : numvecvec := [[0, 0]]

/-- Optimal assignment of the zero-weight counterexample (everything `0`,
`d = 1`). -/
def vZW : Nat → ℚ := fun j => if j = 6 then 1 else 0

/-- One-action, one-state instance used by the duality witnesses. -/
def zOne : numvecvec := [[1]]

/-- Its nominal transitions. -/
def pbarOne : numvecvec := [[1]]

/-- A primal point of the `zOne` models with `lambda = 1 > 0`. -/
def vOne : Nat → ℚ := fun j => if j = 3 then 1 else if j = 4 then 1 else 0

/-- Dual values for the `zOne` models with `kappa = 1` (all three
constraints have dual value `1`). -/
def uOne : Nat → ℚ := fun _ => 1

/-- Solver oracle pairing `vOne` with `uOne`. -/
def solOne : Sol := ⟨vOne, uOne, 1⟩

/-- The invalid nominal transitions of the spec's concrete failure
scenario: the first row sums to `0.9`. -/
def pbarBad : numvecvec := [[1/2, 2/5], [1/2, 1/2]]

/-- A feasible point of the one-action models (`d = 1`, all else `0`). -/
def vPinOne : Nat → ℚ := fun j => if j = 4 then 1 else 0

/-- Solver oracle whose primal point is `vPinOne`. -/
def solPinOne : Sol := ⟨vPinOne, fun _ => 0, 0⟩

/-! ## Evaluation lemmas -/

theorem evalTerms_nil (v : Nat → ℚ) : evalTerms [] v = 0 := rfl

theorem evalTerms_cons (p : Nat × ℚ) (t : List (Nat × ℚ)) (v : Nat → ℚ) :
    evalTerms (p :: t) v = p.2 * v p.1 + evalTerms t v := rfl

theorem evalTerms_append (t1 t2 : List (Nat × ℚ)) (v : Nat → ℚ) :
    evalTerms (t1 ++ t2) v = evalTerms t1 v + evalTerms t2 v := by
  unfold evalTerms; rw [List.map_append, List.sum_append]

theorem evalTerms_flatten (L : List (List (Nat × ℚ))) (v : Nat → ℚ) :
    evalTerms L.flatten v = (L.map (fun t => evalTerms t v)).sum := by
  induction L with
  | nil => rfl
  | cons h t ih => simp only [List.flatten_cons, evalTerms_append, ih,
      List.map_cons, List.sum_cons]

theorem sum_map_range {M : Type} [AddCommMonoid M] (f : Nat → M) (n : Nat) :
    ((List.range n).map f).sum = ∑ i in Finset.range n, f i := by
  induction n with
  | zero => rfl
  | succ m ih =>
      rw [List.range_succ, List.map_append, List.sum_append,
        Finset.sum_range_succ, ih]
      simp

theorem srectObj_eval (pbar : numvecvec) (kappa : ℚ) (v : Nat → ℚ) :
    evalTerms (srectObjTerms pbar kappa) v = amended_l1_objective pbar kappa v := by
  unfold srectObjTerms amended_l1_objective
  rw [evalTerms_append, evalTerms_flatten, List.map_map]
  have hinner : ∀ a : Nat,
      ((fun t => evalTerms t v) ∘ fun a =>
        (xIdx a, (1 : ℚ)) :: ((List.range (scount pbar a)).map (fun s =>
          [(ypIdx pbar.length (aofs pbar a + s), -(zq pbar a s)),
           (ynIdx pbar.length (nsa pbar) (aofs pbar a + s), zq pbar a s)])).flatten) a
      = v (xIdx a) + ∑ s in Finset.range (scount pbar a),
          (-(zq pbar a s) * v (ypIdx pbar.length (aofs pbar a + s)) +
            zq pbar a s * v (ynIdx pbar.length (nsa pbar) (aofs pbar a + s))) := by
    intro a
    simp only [Function.comp, evalTerms_cons, evalTerms_flatten, List.map_map]
    rw [sum_map_range]
    simp only [Function.comp, evalTerms_cons, evalTerms_nil, one_mul, add_zero]
  rw [funext hinner, sum_map_range]
  simp only [evalTerms_cons, evalTerms_nil, add_zero, mul_sub, neg_mul,
    Finset.sum_add_distrib, Finset.sum_sub_distrib, Finset.sum_neg_distrib]
  ring

/-! ## Variable-bound lemmas -/

theorem getD_all_eq {α : Type} (l : List α) (b d : α)
    (hall : ∀ x ∈ l, x = b) (i : Nat) (h : i < l.length) : l.getD i d = b := by
  rw [List.getD_eq_getElem l d h]
  exact hall _ (List.getElem_mem h)

theorem srectVars_length (A N : Nat) :
    (srectVars A N).length = A + N + N + 1 + A := by
  simp [srectVars]; omega

theorem srectVars_getD_x (A N i : Nat) (h : i < A) :
    (srectVars A N).getD i ⟨none, none⟩ = ⟨none, none⟩ := by
  unfold srectVars
  rw [List.getD_append _ _ _ i (by simpa using h)]
  exact getD_all_eq _ _ _ (by simp [List.eq_of_mem_replicate]) i (by simpa using h)

theorem srectVars_getD_pos (A N i : Nat) (h1 : A ≤ i)
    (h2 : i < A + N + N + 1 + A) :
    (srectVars A N).getD i ⟨none, none⟩ = ⟨some 0, none⟩ := by
  unfold srectVars
  rw [List.getD_append_right _ _ _ _ (by simpa using h1)]
  apply getD_all_eq
  · intro x hx
    simp only [List.mem_append, List.mem_replicate, List.mem_singleton] at hx
    rcases hx with ⟨_, h⟩ | ⟨_, h⟩ | h | ⟨_, h⟩ <;> exact h
  · simp only [List.length_append, List.length_replicate, List.length_singleton,
      List.length_cons, List.length_nil]
    omega

theorem srect_bounds_iff (A N : Nat) (v : Nat → ℚ) :
    (∀ i, i < (srectVars A N).length →
      inBounds ((srectVars A N).getD i ⟨none, none⟩) (v i)) ↔
    (∀ i, A ≤ i → i < A + N + N + 1 + A → 0 ≤ v i) := by
  constructor
  · intro h i h1 h2
    have hb := h i (by rw [srectVars_length]; omega)
    rw [srectVars_getD_pos A N i h1 h2] at hb
    exact hb.1
  · intro h i hlen
    rw [srectVars_length] at hlen
    rcases Nat.lt_or_ge i A with hi | hi
    · rw [srectVars_getD_x A N i hi]; exact ⟨trivial, trivial⟩
    · rw [srectVars_getD_pos A N i hi hlen]
      exact ⟨h i hi hlen, trivial⟩

/-! ## Constraint membership and satisfaction lemmas -/

theorem mem_l1LoopCons_iff (z pbar w : numvecvec) (c : Constr) :
    c ∈ l1LoopCons z pbar w ↔
    ∃ a, a < pbar.length ∧ ∃ s, s < scount pbar a ∧
      (c = pCon z pbar a s ∨ c = psiCon pbar w a s) := by
  unfold l1LoopCons
  simp only [List.mem_flatten, List.mem_map, List.mem_range]
  constructor
  · rintro ⟨l, ⟨a, ha, rfl⟩, hc⟩
    simp only [List.mem_flatten, List.mem_map, List.mem_range] at hc
    obtain ⟨l2, ⟨s, hs, rfl⟩, hc⟩ := hc
    simp only [List.mem_cons, List.not_mem_nil, or_false] at hc
    exact ⟨a, ha, s, hs, hc⟩
  · rintro ⟨a, ha, s, hs, hc⟩
    refine ⟨_, ⟨a, ha, rfl⟩, ?_⟩
    simp only [List.mem_flatten, List.mem_map, List.mem_range]
    refine ⟨_, ⟨s, hs, rfl⟩, ?_⟩
    simpa using hc

theorem sat_pCon_iff (z pbar : numvecvec) (a s : Nat) (v : Nat → ℚ) :
    satConstr (pCon z pbar a s) v ↔
    v (xIdx a) - v (ypIdx pbar.length (aofs pbar a + s)) +
      v (ynIdx pbar.length (nsa pbar) (aofs pbar a + s)) -
      zq z a s * v (dIdx pbar.length (nsa pbar) a) ≤ 0 := by
  simp only [satConstr, pCon, evalTerms, List.map_cons, List.map_nil,
    List.sum_cons, List.sum_nil]
  constructor <;> intro h <;> linarith

theorem sat_psiCon_iff (pbar w : numvecvec) (a s : Nat) (v : Nat → ℚ) :
    satConstr (psiCon pbar w a s) v ↔
    -(wq w a s) * v (lamIdx pbar.length (nsa pbar)) +
      v (ypIdx pbar.length (aofs pbar a + s)) +
      v (ynIdx pbar.length (nsa pbar) (aofs pbar a + s)) ≤ 0 := by
  simp only [satConstr, psiCon, evalTerms, List.map_cons, List.map_nil,
    List.sum_cons, List.sum_nil]
  constructor <;> intro h <;> linarith

theorem evalTerms_unit_map_range (n : Nat) (g : Nat → Nat) (v : Nat → ℚ) :
    evalTerms ((List.range n).map (fun a => (g a, (1 : ℚ)))) v =
      ∑ a in Finset.range n, v (g a) := by
  unfold evalTerms
  rw [List.map_map]
  have : ((fun p : Nat × ℚ => p.2 * v p.1) ∘ fun a => (g a, (1 : ℚ))) =
      fun a => v (g a) := by
    funext a; simp
  rw [this, sum_map_range]

theorem feasible_l1_iff (z pbar w : numvecvec) (kappa : ℚ) (pe : numvec)
    (v : Nat → ℚ) :
    Feasible (srect_l1_model z pbar w kappa pe) v ↔ L1Feas z pbar w pe v := by
  unfold Feasible srect_l1_model
  dsimp only
  rw [srect_bounds_iff]
  constructor
  · rintro ⟨hb, hc⟩
    refine ⟨?_, ?_, ?_, ?_, ?_, ?_, ?_, ?_⟩
    · intro i hi
      apply hb <;> unfold ypIdx <;> omega
    · intro i hi
      apply hb <;> unfold ynIdx <;> omega
    · apply hb <;> unfold lamIdx <;> omega
    · intro a ha
      apply hb <;> unfold dIdx <;> omega
    · intro hpe
      subst hpe
      have hmem : (⟨(List.range pbar.length).map
          (fun a => (dIdx pbar.length (nsa pbar) a, (1 : ℚ))),
          Rel.eq, 1, "pi"⟩ : Constr) ∈
          l1PolicyCons pbar [] ++ l1LoopCons z pbar w := by
        simp [l1PolicyCons]
      have hsat := hc _ hmem
      simpa [satConstr, evalTerms_unit_map_range] using hsat
    · intro a ha
      have hne : pe.isEmpty = false := by
        cases pe with
        | nil => exact absurd ha (by simp)
        | cons p0 ps => rfl
      have hmem : (⟨[(dIdx pbar.length (nsa pbar) a, (1 : ℚ))],
          Rel.eq, pe.getD a 0, ""⟩ : Constr) ∈
          l1PolicyCons pbar pe ++ l1LoopCons z pbar w := by
        apply List.mem_append_left
        simp only [l1PolicyCons, hne, Bool.false_eq_true, if_false,
          List.mem_map, List.mem_range]
        exact ⟨a, ha, rfl⟩
      have hsat := hc _ hmem
      simpa [satConstr, evalTerms] using hsat
    · intro a ha s hs
      have hmem := List.mem_append_right (l1PolicyCons pbar pe)
        ((mem_l1LoopCons_iff z pbar w _).2 ⟨a, ha, s, hs, Or.inl rfl⟩)
      exact (sat_pCon_iff z pbar a s v).1 (hc _ hmem)
    · intro a ha s hs
      have hmem := List.mem_append_right (l1PolicyCons pbar pe)
        ((mem_l1LoopCons_iff z pbar w _).2 ⟨a, ha, s, hs, Or.inr rfl⟩)
      exact (sat_psiCon_iff pbar w a s v).1 (hc _ hmem)
  · rintro ⟨hyp, hyn, hlam, hd, hpsum, hpin, hpc, hpsic⟩
    constructor
    · intro i h1 h2
      by_cases hy : i < pbar.length + nsa pbar
      · have hv := hyp (i - pbar.length) (by omega)
        have e : ypIdx pbar.length (i - pbar.length) = i := by
          unfold ypIdx; omega
        rwa [e] at hv
      · by_cases hn : i < pbar.length + 2 * nsa pbar
        · have hv := hyn (i - (pbar.length + nsa pbar)) (by omega)
          have e : ynIdx pbar.length (nsa pbar)
              (i - (pbar.length + nsa pbar)) = i := by
            unfold ynIdx; omega
          rwa [e] at hv
        · by_cases hlm : i = pbar.length + 2 * nsa pbar
          · have e : lamIdx pbar.length (nsa pbar) = i := by unfold lamIdx; omega
            rwa [e] at hlam
          · have hv := hd (i - (pbar.length + 2 * nsa pbar + 1)) (by omega)
            have e : dIdx pbar.length (nsa pbar)
                (i - (pbar.length + 2 * nsa pbar + 1)) = i := by
              unfold dIdx; omega
            rwa [e] at hv
    · intro c hcmem
      rcases List.mem_append.1 hcmem with hp | hl
      · cases pe with
        | nil =>
            simp only [l1PolicyCons, List.isEmpty_nil, if_true,
              List.mem_singleton] at hp
            subst hp
            simpa [satConstr, evalTerms_unit_map_range] using hpsum rfl
        | cons p0 ps =>
            simp only [l1PolicyCons, List.isEmpty_cons, Bool.false_eq_true,
              if_false, List.mem_map, List.mem_range] at hp
            obtain ⟨a, ha, rfl⟩ := hp
            have := hpin a ha
            simpa [satConstr, evalTerms] using this
      · obtain ⟨a, ha, s, hs, hc2 | hc2⟩ := (mem_l1LoopCons_iff z pbar w c).1 hl
        · subst hc2
          exact (sat_pCon_iff z pbar a s v).2 (hpc a ha s hs)
        · subst hc2
          exact (sat_psiCon_iff pbar w a s v).2 (hpsic a ha s hs)

theorem mem_linfLoop_iff (z pbar : numvecvec) (c : Constr) :
    c ∈ ((List.range pbar.length).map (fun a =>
      ((List.range (scount pbar a)).map (fun s => pCon z pbar a s))
        ++ [thetaCon pbar a])).flatten ↔
    ∃ a, a < pbar.length ∧
      ((∃ s, s < scount pbar a ∧ c = pCon z pbar a s) ∨ c = thetaCon pbar a) := by
  simp only [List.mem_flatten, List.mem_map, List.mem_range]
  constructor
  · rintro ⟨l, ⟨a, ha, rfl⟩, hc⟩
    simp only [List.mem_append, List.mem_map, List.mem_range,
      List.mem_singleton] at hc
    rcases hc with ⟨s, hs, rfl⟩ | rfl
    · exact ⟨a, ha, Or.inl ⟨s, hs, rfl⟩⟩
    · exact ⟨a, ha, Or.inr rfl⟩
  · rintro ⟨a, ha, ⟨s, hs, rfl⟩ | rfl⟩
    · refine ⟨_, ⟨a, ha, rfl⟩, ?_⟩
      simp only [List.mem_append, List.mem_map, List.mem_range]
      exact Or.inl ⟨s, hs, rfl⟩
    · refine ⟨_, ⟨a, ha, rfl⟩, ?_⟩
      simp

theorem sat_thetaCon_iff (pbar : numvecvec) (a : Nat) (v : Nat → ℚ) :
    satConstr (thetaCon pbar a) v ↔
    -(v (lamIdx pbar.length (nsa pbar))) +
      (∑ s in Finset.range (scount pbar a),
        (v (ypIdx pbar.length (aofs pbar a + s)) +
         v (ynIdx pbar.length (nsa pbar) (aofs pbar a + s)))) ≤ 0 := by
  simp only [satConstr, thetaCon, evalTerms_cons, evalTerms_flatten,
    List.map_map]
  rw [sum_map_range]
  simp only [Function.comp, evalTerms_cons, evalTerms_nil, one_mul, add_zero,
    neg_one_mul]

theorem feasible_linf_iff (z pbar : numvecvec) (kappa : ℚ) (w : numvecvec)
    (v : Nat → ℚ) :
    Feasible (srect_linf_model z pbar kappa w) v ↔ LinfFeas z pbar v := by
  unfold Feasible srect_linf_model
  dsimp only
  rw [srect_bounds_iff]
  constructor
  · rintro ⟨hb, hc⟩
    refine ⟨?_, ?_, ?_, ?_, ?_, ?_, ?_⟩
    · intro i hi
      apply hb <;> unfold ypIdx <;> omega
    · intro i hi
      apply hb <;> unfold ynIdx <;> omega
    · apply hb <;> unfold lamIdx <;> omega
    · intro a ha
      apply hb <;> unfold dIdx <;> omega
    · have hmem : linfPolicyCon pbar ∈ ((List.range pbar.length).map (fun a =>
          ((List.range (scount pbar a)).map (fun s => pCon z pbar a s))
            ++ [thetaCon pbar a])).flatten ++ [linfPolicyCon pbar] := by
        simp
      have hsat := hc _ hmem
      simpa [satConstr, linfPolicyCon, evalTerms_unit_map_range] using hsat
    · intro a ha s hs
      have hmem := List.mem_append_left
        [linfPolicyCon pbar]
        ((mem_linfLoop_iff z pbar _).2 ⟨a, ha, Or.inl ⟨s, hs, rfl⟩⟩)
      exact (sat_pCon_iff z pbar a s v).1 (hc _ hmem)
    · intro a ha
      have hmem := List.mem_append_left
        [linfPolicyCon pbar]
        ((mem_linfLoop_iff z pbar _).2 ⟨a, ha, Or.inr rfl⟩)
      exact (sat_thetaCon_iff pbar a v).1 (hc _ hmem)
  · rintro ⟨hyp, hyn, hlam, hd, hpsum, hpc, hth⟩
    constructor
    · intro i h1 h2
      by_cases hy : i < pbar.length + nsa pbar
      · have hv := hyp (i - pbar.length) (by omega)
        have e : ypIdx pbar.length (i - pbar.length) = i := by
          unfold ypIdx; omega
        rwa [e] at hv
      · by_cases hn : i < pbar.length + 2 * nsa pbar
        · have hv := hyn (i - (pbar.length + nsa pbar)) (by omega)
          have e : ynIdx pbar.length (nsa pbar)
              (i - (pbar.length + nsa pbar)) = i := by
            unfold ynIdx; omega
          rwa [e] at hv
        · by_cases hlm : i = pbar.length + 2 * nsa pbar
          · have e : lamIdx pbar.length (nsa pbar) = i := by unfold lamIdx; omega
            rwa [e] at hlam
          · have hv := hd (i - (pbar.length + 2 * nsa pbar + 1)) (by omega)
            have e : dIdx pbar.length (nsa pbar)
                (i - (pbar.length + 2 * nsa pbar + 1)) = i := by
              unfold dIdx; omega
            rwa [e] at hv
    · intro c hcmem
      rcases List.mem_append.1 hcmem with hl | hp
      · obtain ⟨a, ha, ⟨s, hs, hc2⟩ | hc2⟩ := (mem_linfLoop_iff z pbar c).1 hl
        · subst hc2
          exact (sat_pCon_iff z pbar a s v).2 (hpc a ha s hs)
        · subst hc2
          exact (sat_thetaCon_iff pbar a v).2 (hth a ha)
      · simp only [List.mem_singleton] at hp
        subst hp
        simpa [satConstr, linfPolicyCon, evalTerms_unit_map_range] using hpsum

theorem objEval_l1 (z pbar w : numvecvec) (kappa : ℚ) (pe : numvec)
    (v : Nat → ℚ) :
    objEval (srect_l1_model z pbar w kappa pe) v =
      amended_l1_objective pbar kappa v :=
  srectObj_eval pbar kappa v

theorem objEval_linf (z pbar : numvecvec) (kappa : ℚ) (w : numvecvec)
    (v : Nat → ℚ) :
    objEval (srect_linf_model z pbar kappa w) v =
      amended_l1_objective pbar kappa v :=
  srectObj_eval pbar kappa v

/-- C1 (amended): for every input, the objective the L1 builder hands to the
solver is `Σ_a x_a − Σ_{a,s} pbar[a][s]·(y+_{a,s} − y-_{a,s}) − kappa·lambda`
— the spec's formula with the elementwise dual-price term negated (the sign
of the `pbar`-weighted term in the claim is flipped). -/
theorem l1_objective_formula :
    ∀ (z pbar w : numvecvec) (kappa : ℚ) (pe : numvec) (v : Nat → ℚ),
      objEval (srect_l1_model z pbar w kappa pe) v =
        amended_l1_objective pbar kappa v :=
  fun z pbar w kappa pe v => srectObj_eval pbar kappa v

/-- C1 is false as stated: on the one-action, one-outcome input
`z = [[0]]`, `pbar = [[1]]`, `kappa = 0`, the assignment with `yn = 1` and
everything else `0` gives the built objective the value `1`, while the
spec's formula `Σ_a x_a − Σ_{a,s} pbar[a][s]·(y- − y+) − kappa·lambda`
evaluates to `-1`. -/
theorem l1_objective_spec_refuted :
    objEval (srect_l1_model [[0]] [[1]] [] 0 []) vOneYn = 1 ∧
    spec_l1_objective [[1]] 0 vOneYn = -1 ∧
    objEval (srect_l1_model [[0]] [[1]] [] 0 []) vOneYn ≠
      spec_l1_objective [[1]] 0 vOneYn := by
  have h1 : objEval (srect_l1_model [[0]] [[1]] [] 0 []) vOneYn = 1 := by
    norm_num [objEval, srect_l1_model, srectObjTerms, evalTerms, vOneYn,
      scount, nsa, aofs, zq, xIdx, ypIdx, ynIdx, lamIdx, dIdx,
      Finset.sum_range_succ, Finset.sum_range_zero,
      List.range_succ, List.range_zero, List.getD_cons_zero,
      List.getD_cons_succ, l1PolicyCons, l1LoopCons]
  have h2 : spec_l1_objective [[1]] 0 vOneYn = -1 := by
    norm_num [spec_l1_objective, vOneYn, scount, nsa, aofs, zq,
      xIdx, ypIdx, ynIdx, lamIdx,
      Finset.sum_range_succ, Finset.sum_range_zero,
      List.getD_cons_zero, List.getD_cons_succ]
  exact ⟨h1, h2, by rw [h1, h2]; norm_num⟩

/-- C10: the sequence `[-0.5, 1.5]` has a strictly negative first entry and
sums to `1` (within the `1e-6` tolerance), yet `is_probability_dist`
accepts it — the non-negativity check skips the first element — and it
passes the `policy_eval` distribution check of `srect_l1_solve_gurobi`. -/
theorem first_element_sign_unchecked :
    (-(1 : ℚ)/2 < 0) ∧
    |([-(1 : ℚ)/2, 3/2] : List ℚ).sum - 1| < EPSILON ∧
    is_probability_dist [-(1 : ℚ)/2, 3/2] = true ∧
    l1_input_asserts [[1, 0], [0, 1]] [[1/2, 1/2], [1/2, 1/2]] []
      [-(1 : ℚ)/2, 3/2] = true := by
  refine ⟨by norm_num, by norm_num [EPSILON], ?_, ?_⟩
  · norm_num [is_probability_dist, is_probability_dist_loop, EPSILON]
  · norm_num [l1_input_asserts, is_probability_dist,
      is_probability_dist_loop, EPSILON, List.isEmpty]

/-- C4 (amended): the only input validation consists of `assert` statements
on outer shape agreement of `z`/`pbar`/`w` (plus the `policy_eval` length
and distribution assertions); no row of `pbar` is ever inspected and
`kappa` is never checked, so every call with agreeing outer shapes — with
arbitrary `pbar` rows and arbitrary (even negative) `kappa` — builds the LP
and, at optimal solver status, returns a result. -/
theorem validation_shape_only :
    (∀ (z pbar w : numvecvec) (kappa : ℚ) (s : Sol),
      pbar.length = z.length → (w = [] ∨ w.length = z.length) →
      ∃ r, srect_l1_solve_gurobi ⟨Status.optimal, some s⟩ z pbar kappa w []
        = Except.ok r) ∧
    (∀ (z pbar w : numvecvec) (kappa : ℚ) (s : Sol),
      pbar.length = z.length → (w = [] ∨ w.length = z.length) →
      ∃ r, srect_linf_solve_gurobi ⟨Status.optimal, some s⟩ z pbar kappa w
        = Except.ok r) := by
  constructor
  · intro z pbar w kappa s h1 h2
    have ha : l1_input_asserts z pbar w [] = true := by
      rcases h2 with rfl | h2
      · simp [l1_input_asserts, h1]
      · simp [l1_input_asserts, h1, h2]
    exact ⟨(s.objval, extract_policy pbar.length (nsa pbar) s,
      l1_budgets (srect_l1_model z pbar w kappa []) s),
      by simp [srect_l1_solve_gurobi, ha]⟩
  · intro z pbar w kappa s h1 h2
    have ha : linf_input_asserts z pbar w = true := by
      rcases h2 with rfl | h2
      · simp [linf_input_asserts, h1]
      · simp [linf_input_asserts, h1, h2]
    exact ⟨(s.objval, extract_policy pbar.length (nsa pbar) s,
      linf_budgets pbar.length (srect_linf_model z pbar kappa w) s),
      by simp [srect_linf_solve_gurobi, ha]⟩

/-- Witness for the validation theorem at a concrete input. -/
theorem validation_shape_only_witness :
    ∃ r, srect_l1_solve_gurobi ⟨Status.optimal, some solZero⟩ [[1]] [[1]]
      0 [] [] = Except.ok r :=
  validation_shape_only.1 [[1]] [[1]] [] 0 solZero rfl (Or.inl rfl)

/-- C4 is false as stated: with `pbar = [[0.5, 0.4], [0.5, 0.5]]` (first
row sums to `0.9`) nothing fails before LP construction — the assertions
pass and, at optimal solver status, the L1 call returns a result instead of
failing with `InvalidDistribution`. -/
theorem invalid_pbar_accepted :
    l1_input_asserts [[1, 0], [0, 1]] pbarBad [] [] = true ∧
    ((pbarBad.getD 0 []).sum = 9/10) ∧
    srect_l1_solve_gurobi ⟨Status.optimal, some solZero⟩ [[1, 0], [0, 1]]
      pbarBad 0 [] [] =
      Except.ok (0, extract_policy 2 (nsa pbarBad) solZero,
        l1_budgets (srect_l1_model [[1, 0], [0, 1]] pbarBad [] 0 []) solZero) := by
  refine ⟨by norm_num [l1_input_asserts, pbarBad], by norm_num [pbarBad], ?_⟩
  have ha : l1_input_asserts [[1, 0], [0, 1]] pbarBad [] [] = true := by
    norm_num [l1_input_asserts, pbarBad]
  simp [srect_l1_solve_gurobi, ha, solZero]
  norm_num [pbarBad]

/-- C3 (amended): the L1 operation does read the solver status and fails
with a hard error (a single `invalid_argument`, not a three-way taxonomy)
whenever the status is not optimal; the L-infinity operation, however,
performs no status check at all — its result is entirely independent of the
reported status, and whatever primal/dual attributes the solver exposes are
extracted and returned even at a non-optimal status. -/
theorem solver_status_handling :
    (∀ (out : GRBOutput) (z pbar w : numvecvec) (kappa : ℚ) (pe : numvec),
      out.status ≠ Status.optimal →
      srect_l1_solve_gurobi out z pbar kappa w pe = Except.error "assert" ∨
      srect_l1_solve_gurobi out z pbar kappa w pe =
        Except.error "Failed to solve the LP.") ∧
    (∀ (st : Status) (os : Option Sol) (z pbar w : numvecvec) (kappa : ℚ),
      srect_linf_solve_gurobi ⟨st, os⟩ z pbar kappa w =
        srect_linf_solve_gurobi ⟨Status.optimal, os⟩ z pbar kappa w) := by
  constructor
  · intro out z pbar w kappa pe hst
    by_cases ha : l1_input_asserts z pbar w pe = true
    · right; simp [srect_l1_solve_gurobi, ha, hst]
    · left; simp [srect_l1_solve_gurobi, ha]
  · intro st os z pbar w kappa
    rfl

/-- Witness for the status-handling theorem at a concrete input. -/
theorem solver_status_handling_witness :
    srect_l1_solve_gurobi ⟨Status.infeasible, none⟩ [[1]] [[1]] 0 [] [] =
      Except.error "assert" ∨
    srect_l1_solve_gurobi ⟨Status.infeasible, none⟩ [[1]] [[1]] 0 [] [] =
      Except.error "Failed to solve the LP." :=
  solver_status_handling.1 ⟨Status.infeasible, none⟩ [[1]] [[1]] [] 0 []
    (by intro h; cases h)

/-- C3 is false as stated: at the non-optimal status `SUBOPTIMAL` (where
Gurobi still exposes a solution) the L-infinity call returns a full result
instead of failing. -/
theorem linf_ignores_status :
    Status.suboptimal ≠ Status.optimal ∧
    srect_linf_solve_gurobi ⟨Status.suboptimal, some solZero⟩ [[1]] [[1]]
      0 [] = Except.ok (0, [0], [0]) := by
  refine ⟨by decide, ?_⟩
  simp [srect_linf_solve_gurobi, linf_input_asserts, solZero,
    extract_policy, linf_budgets, dualsByName, srect_linf_model,
    linfPolicyCon, thetaCon, pCon, nsa, scount, aofs,
    Finset.sum_range_succ, Finset.sum_range_zero,
    List.range_succ, List.range_zero]

/-! ## Length of the extracted budgets -/

theorem dualsByName_append (l1 l2 : List Constr) (u : Nat → ℚ) (j0 : Nat)
    (nm : String) :
    dualsByName (l1 ++ l2) u j0 nm =
      dualsByName l1 u j0 nm ++ dualsByName l2 u (j0 + l1.length) nm := by
  induction l1 generalizing j0 with
  | nil => simp [dualsByName]
  | cons c rest ih =>
      have e : j0 + 1 + rest.length = j0 + (rest.length + 1) := by omega
      by_cases h : c.cname = nm
      · simp only [List.cons_append, dualsByName, h, if_true,
          List.length_cons, List.append_eq, ih (j0 + 1), e]
      · simp only [List.cons_append, dualsByName, h, if_false,
          List.length_cons, List.append_eq, ih (j0 + 1), e]

theorem dualsByName_length (l : List Constr) (u : Nat → ℚ) (j0 : Nat)
    (nm : String) :
    (dualsByName l u j0 nm).length = l.countP (fun c => c.cname == nm) := by
  induction l generalizing j0 with
  | nil => simp [dualsByName]
  | cons c rest ih =>
      by_cases h : c.cname = nm
      · simp [dualsByName, h, ih (j0 + 1), List.countP_cons]
      · simp [dualsByName, h, ih (j0 + 1), List.countP_cons]

theorem countP_flatten {α : Type} (p : α → Bool) (L : List (List α)) :
    L.flatten.countP p = (L.map (fun l => l.countP p)).sum := by
  induction L with
  | nil => rfl
  | cons h t ih => simp [List.countP_append, ih]

theorem countP_psi_l1LoopCons (z pbar w : numvecvec) :
    (l1LoopCons z pbar w).countP (fun c => c.cname == "psi") = nsa pbar := by
  unfold l1LoopCons
  rw [countP_flatten, List.map_map]
  have : ∀ a : Nat,
      ((fun l => List.countP (fun c => c.cname == "psi") l) ∘ fun a =>
        ((List.range (scount pbar a)).map (fun s =>
          [pCon z pbar a s, psiCon pbar w a s])).flatten) a = scount pbar a := by
    intro a
    simp only [Function.comp]
    rw [countP_flatten, List.map_map]
    have h2 : ∀ s : Nat,
        ((fun l => List.countP (fun c => c.cname == "psi") l) ∘ fun s =>
          [pCon z pbar a s, psiCon pbar w a s]) s = 1 := by
      intro s
      simp [List.countP_cons, pCon, psiCon]
    rw [funext h2, sum_map_range]
    simp
  rw [funext this, sum_map_range]
  rfl

theorem countP_psi_l1PolicyCons (pbar : numvecvec) (pe : numvec) :
    (l1PolicyCons pbar pe).countP (fun c => c.cname == "psi") = 0 := by
  cases pe with
  | nil => simp [l1PolicyCons, List.countP_cons]
  | cons p0 ps =>
      simp only [l1PolicyCons, List.isEmpty_cons, Bool.false_eq_true, if_false]
      rw [List.countP_eq_zero]
      intro c hc
      simp only [List.mem_map, List.mem_range] at hc
      obtain ⟨i, _, rfl⟩ := hc
      simp

theorem l1_budgets_length (z pbar w : numvecvec) (kappa : ℚ) (pe : numvec)
    (s : Sol) :
    (l1_budgets (srect_l1_model z pbar w kappa pe) s).length = nsa pbar := by
  unfold l1_budgets srect_l1_model
  dsimp only
  rw [dualsByName_length, List.countP_append, countP_psi_l1PolicyCons,
    countP_psi_l1LoopCons]
  omega

theorem countP_theta_linfLoop (z pbar : numvecvec) :
    (((List.range pbar.length).map (fun a =>
      ((List.range (scount pbar a)).map (fun s => pCon z pbar a s))
        ++ [thetaCon pbar a])).flatten).countP
      (fun c => c.cname == "theta") = pbar.length := by
  rw [countP_flatten, List.map_map]
  have : ∀ a : Nat,
      ((fun l => List.countP (fun c => c.cname == "theta") l) ∘ fun a =>
        ((List.range (scount pbar a)).map (fun s => pCon z pbar a s))
          ++ [thetaCon pbar a]) a = 1 := by
    intro a
    simp only [Function.comp]
    rw [List.countP_append]
    have hz : ((List.range (scount pbar a)).map
        (fun s => pCon z pbar a s)).countP (fun c => c.cname == "theta") = 0 := by
      rw [List.countP_eq_zero]
      intro c hc
      simp only [List.mem_map, List.mem_range] at hc
      obtain ⟨i, _, rfl⟩ := hc
      simp [pCon]
    rw [hz]
    simp [List.countP_cons, thetaCon]
  rw [funext this, sum_map_range]
  simp

theorem linf_theta_duals_length (z pbar : numvecvec) (kappa : ℚ)
    (w : numvecvec) (s : Sol) :
    (dualsByName (srect_linf_model z pbar kappa w).constrs s.piv 0
      "theta").length = pbar.length := by
  unfold srect_linf_model
  dsimp only
  rw [dualsByName_length, List.countP_append, countP_theta_linfLoop]
  simp [List.countP_cons, linfPolicyCon]

theorem linf_budgets_length (z pbar : numvecvec) (kappa : ℚ)
    (w : numvecvec) (s : Sol) :
    (linf_budgets pbar.length (srect_linf_model z pbar kappa w) s).length =
      pbar.length := by
  unfold linf_budgets
  have h := linf_theta_duals_length z pbar kappa w s
  simp [h]

/-- C8 (amended): the budgets component is read from the duals of the
role-tagged constraints (`"psi"` for L1, `"theta"` for L-infinity), but
only the L-infinity budgets are per-action: the L1 budgets carry one entry
per action-state pair (`nstateactions` entries), not one per action. -/
theorem budgets_length_amended :
    (∀ (z pbar w : numvecvec) (kappa : ℚ) (pe : numvec) (s : Sol),
      (l1_budgets (srect_l1_model z pbar w kappa pe) s).length = nsa pbar) ∧
    (∀ (z pbar w : numvecvec) (kappa : ℚ) (s : Sol),
      (dualsByName (srect_linf_model z pbar kappa w).constrs s.piv 0
        "theta").length = pbar.length ∧
      (linf_budgets pbar.length (srect_linf_model z pbar kappa w) s).length =
        pbar.length) :=
  ⟨fun z pbar w kappa pe s => l1_budgets_length z pbar w kappa pe s,
   fun z pbar w kappa s => ⟨linf_theta_duals_length z pbar kappa w s,
     linf_budgets_length z pbar kappa w s⟩⟩

/-- C8 is false as stated: on the spec's own 2-action, 2-outcome scenario
the L1 budgets have 4 entries (one per action-state pair), not 2 (one per
action). -/
theorem l1_budgets_per_state :
    (l1_budgets (srect_l1_model zHalf pbarHalf [] 0 []) solZero).length = 4 ∧
    pbarHalf.length = 2 ∧ (4 : Nat) ≠ 2 := by
  refine ⟨?_, rfl, by decide⟩
  rw [l1_budgets_length]
  norm_num [nsa, scount, pbarHalf, Finset.sum_range_succ]

/-! ## Policy constraints (C5, C6) -/

theorem list_eq_of_getD (l1 l2 : List ℚ) (h : l1.length = l2.length)
    (he : ∀ i, i < l1.length → l1.getD i 0 = l2.getD i 0) : l1 = l2 := by
  apply List.ext_getElem h
  intro i h1 h2
  have hi := he i h1
  rwa [List.getD_eq_getElem _ _ h1, List.getD_eq_getElem _ _ h2] at hi

/-- C5: the two policy constraint sets of the L1 model are mutually
exclusive, selected by presence of `policy_eval`: without it the model
carries the single normalization `Σ_a d_a = 1` (the only equality
constraint, tagged `"pi"`); with it the model carries only the pins
`d_a = policy_eval[a]` (no `"pi"` constraint exists), every feasible point
has `d = policy_eval`, and the returned policy equals `policy_eval`
exactly. -/
theorem l1_policy_constraint_selection :
    ∀ (z pbar w : numvecvec) (kappa : ℚ) (pe : numvec) (s : Sol),
      (pe = [] → ∀ v, Feasible (srect_l1_model z pbar w kappa pe) v →
        ∑ a in Finset.range pbar.length,
          v (dIdx pbar.length (nsa pbar) a) = 1) ∧
      (∀ v, Feasible (srect_l1_model z pbar w kappa pe) v →
        ∀ a, a < pe.length →
          v (dIdx pbar.length (nsa pbar) a) = pe.getD a 0) ∧
      (pe = [] → ∀ c ∈ (srect_l1_model z pbar w kappa pe).constrs,
        c.rel = Rel.eq → c.cname = "pi") ∧
      (pe ≠ [] → ∀ c ∈ (srect_l1_model z pbar w kappa pe).constrs,
        c.cname ≠ "pi") ∧
      (pe.length = pbar.length →
        Feasible (srect_l1_model z pbar w kappa pe) s.xv →
        extract_policy pbar.length (nsa pbar) s = pe) := by
  intro z pbar w kappa pe s
  refine ⟨?_, ?_, ?_, ?_, ?_⟩
  · intro hpe v hv
    exact ((feasible_l1_iff z pbar w kappa pe v).1 hv).policy_sum hpe
  · intro v hv a ha
    exact ((feasible_l1_iff z pbar w kappa pe v).1 hv).policy_pin a ha
  · intro hpe c hc hrel
    subst hpe
    rcases List.mem_append.1 hc with hp | hl
    · simp only [l1PolicyCons, List.isEmpty_nil, if_true,
        List.mem_singleton] at hp
      subst hp; rfl
    · obtain ⟨a, _, _, _, h2 | h2⟩ := (mem_l1LoopCons_iff z pbar w c).1 hl <;>
        subst h2 <;> cases hrel
  · intro hpe c hc
    rcases List.mem_append.1 hc with hp | hl
    · cases pe with
      | nil => exact absurd rfl hpe
      | cons p0 ps =>
          simp only [l1PolicyCons, List.isEmpty_cons, Bool.false_eq_true,
            if_false, List.mem_map, List.mem_range] at hp
          obtain ⟨i, _, rfl⟩ := hp
          simp
    · obtain ⟨a, _, _, _, h2 | h2⟩ := (mem_l1LoopCons_iff z pbar w c).1 hl <;>
        subst h2 <;> simp [pCon, psiCon]
  · intro hlen hv
    have hpin := ((feasible_l1_iff z pbar w kappa pe s.xv).1 hv).policy_pin
    apply list_eq_of_getD
    · simp [extract_policy, hlen]
    · intro i hi
      simp only [extract_policy, List.length_map, List.length_range] at hi
      have e : (extract_policy pbar.length (nsa pbar) s).getD i 0 =
          s.xv (dIdx pbar.length (nsa pbar) i) := by
        unfold extract_policy
        rw [List.getD_eq_getElem _ _ (by simpa [extract_policy] using hi)]
        simp
      rw [e]
      exact hpin i (by omega)

/-- Feasibility of `vPinOne` for the pinned one-action L1 model. -/
theorem feas_pin_concrete :
    Feasible (srect_l1_model [[1]] [[1]] [] 0 [1]) vPinOne := by
  apply (feasible_l1_iff [[1]] [[1]] [] 0 [1] vPinOne).2
  refine ⟨?_, ?_, ?_, ?_, ?_, ?_, ?_, ?_⟩ <;>
    norm_num [vPinOne, nsa, scount, aofs, zq, wq, xIdx, ypIdx, ynIdx,
      lamIdx, dIdx, Finset.sum_range_succ, List.getD_cons_zero]

/-- Witness for the policy-selection theorem: on `z = pbar = [[1]]` with
`policy_eval = [1]`, the extracted policy is exactly `[1]`. -/
theorem l1_policy_constraint_selection_witness :
    extract_policy 1 (nsa [[1]]) solPinOne = [1] :=
  (l1_policy_constraint_selection [[1]] [[1]] [] 0 [1] solPinOne).2.2.2.2
    rfl feas_pin_concrete

/-- C6: the L-infinity builder ignores `w` entirely (the per-action weight
is fixed at `1.0`), always enforces the policy normalization
`Σ_a d_a = 1`, offers no pinning (its only equality constraint is the
normalization), and every feasible point satisfies the per-action budget
constraint `Σ_s (y+_{a,s} + y-_{a,s}) ≤ lambda · 1`. -/
theorem linf_budget_policy_constraints :
    ∀ (z pbar : numvecvec) (kappa : ℚ) (w w2 : numvecvec),
      srect_linf_model z pbar kappa w = srect_linf_model z pbar kappa w2 ∧
      (∀ v, Feasible (srect_linf_model z pbar kappa w) v →
        (∀ a, a < pbar.length →
          (∑ s in Finset.range (scount pbar a),
            (v (ypIdx pbar.length (aofs pbar a + s)) +
             v (ynIdx pbar.length (nsa pbar) (aofs pbar a + s)))) ≤
          v (lamIdx pbar.length (nsa pbar)) * 1) ∧
        ∑ a in Finset.range pbar.length,
          v (dIdx pbar.length (nsa pbar) a) = 1) ∧
      (∀ c ∈ (srect_linf_model z pbar kappa w).constrs,
        c.rel = Rel.eq → c = linfPolicyCon pbar) := by
  intro z pbar kappa w w2
  refine ⟨rfl, ?_, ?_⟩
  · intro v hv
    have hf := (feasible_linf_iff z pbar kappa w v).1 hv
    refine ⟨?_, hf.policy_sum⟩
    intro a ha
    have := hf.thetacons a ha
    linarith
  · intro c hc hrel
    rcases List.mem_append.1 hc with hl | hp
    · obtain ⟨a, _, ⟨s, _, h2⟩ | h2⟩ := (mem_linfLoop_iff z pbar c).1 hl <;>
        subst h2 <;> cases hrel
    · simpa using hp

/-- Feasibility of `vPinOne` for the one-action L-infinity model. -/
theorem feas_linf_concrete :
    Feasible (srect_linf_model [[1]] [[1]] 0 []) vPinOne := by
  apply (feasible_linf_iff [[1]] [[1]] 0 [] vPinOne).2
  refine ⟨?_, ?_, ?_, ?_, ?_, ?_, ?_⟩ <;>
    norm_num [vPinOne, nsa, scount, aofs, zq, xIdx, ypIdx, ynIdx,
      lamIdx, dIdx, Finset.sum_range_succ, List.getD_cons_zero]

/-- Witness for the L-infinity constraint theorem at the one-action
instance. -/
theorem linf_budget_policy_constraints_witness :
    ∑ a in Finset.range ([[1]] : numvecvec).length,
      vPinOne (dIdx ([[1]] : numvecvec).length (nsa [[1]]) a) = 1 :=
  (((linf_budget_policy_constraints [[1]] [[1]] 0 [] []).2.1 vPinOne
    feas_linf_concrete)).2

/-! ## The largest entry of a list -/

theorem le_maxD (l : List ℚ) (x : ℚ) (hx : x ∈ l) : x ≤ maxD l := by
  induction l with
  | nil => cases hx
  | cons h t ih =>
      cases t with
      | nil =>
          simp only [List.mem_singleton] at hx
          subst hx; exact le_refl _
      | cons h2 t2 =>
          rcases List.mem_cons.1 hx with rfl | hx2
          · exact le_max_left _ _
          · exact le_trans (ih hx2) (le_max_right _ _)

theorem maxD_mem (l : List ℚ) (h : l ≠ []) : maxD l ∈ l := by
  induction l with
  | nil => exact absurd rfl h
  | cons hd t ih =>
      cases t with
      | nil => simp [maxD]
      | cons h2 t2 =>
          show max hd (maxD (h2 :: t2)) ∈ hd :: h2 :: t2
          rcases max_choice hd (maxD (h2 :: t2)) with he | he
          · rw [he]; exact List.mem_cons_self _ _
          · rw [he]; exact List.mem_cons_of_mem _ (ih (by simp))

theorem getD_map_range {α : Type} (f : Nat → α) (d : α) (n k : Nat)
    (h : k < n) :
    ((List.range n).map f).getD k d = f k := by
  rw [List.getD_eq_getElem _ _ (by simpa using h)]
  simp

theorem cval_le_nonrobust (z pbar : numvecvec) (a : Nat)
    (ha : a < pbar.length) : cval z pbar a ≤ nonrobustVal z pbar := by
  apply le_maxD
  exact List.mem_map.2 ⟨a, List.mem_range.2 ha, rfl⟩

theorem nonrobust_attained (z pbar : numvecvec) (h : pbar ≠ []) :
    ∃ k, k < pbar.length ∧ cval z pbar k = nonrobustVal z pbar := by
  have hne : ((List.range pbar.length).map (cval z pbar)) ≠ [] := by
    simp only [ne_eq, List.map_eq_nil_iff, List.range_eq_nil]
    intro hl
    exact h (List.length_eq_zero.1 hl)
  have hm := maxD_mem _ hne
  rw [List.mem_map] at hm
  obtain ⟨k, hk, he⟩ := hm
  exact ⟨k, List.mem_range.1 hk, he⟩

/-! ## Index lemmas for the flat action-state enumeration -/

theorem aofs_succ (pbar : numvecvec) (a : Nat) :
    aofs pbar (a + 1) = aofs pbar a + scount pbar a := by
  unfold aofs
  rw [Finset.sum_range_succ]

theorem aofs_add_lt (pbar : numvecvec) (a s : Nat) (ha : a < pbar.length)
    (hs : s < scount pbar a) : aofs pbar a + s < nsa pbar := by
  have h1 : aofs pbar a + s < aofs pbar (a + 1) := by
    rw [aofs_succ]; omega
  have h2 : aofs pbar (a + 1) ≤ nsa pbar := by
    unfold aofs nsa
    apply Finset.sum_le_sum_of_subset
    intro b hb
    simp only [Finset.mem_range] at hb ⊢
    omega
  omega

theorem getD_flatten_at {α : Type} (L : List (List α)) (a s : Nat) (d : α)
    (ha : a < L.length) (hs : s < (L.getD a []).length) :
    L.flatten.getD ((∑ b in Finset.range a, (L.getD b []).length) + s) d =
      (L.getD a []).getD s d := by
  induction L generalizing a with
  | nil => cases ha
  | cons hd tl ih =>
      cases a with
      | zero =>
          simp only [Finset.range_zero, Finset.sum_empty, Nat.zero_add]
          simp only [List.getD_cons_zero] at hs ⊢
          rw [List.flatten_cons, List.getD_append _ _ _ _ hs]
      | succ a2 =>
          simp only [List.getD_cons_succ] at hs ⊢
          have hsum : (∑ b in Finset.range (a2 + 1),
              ((hd :: tl).getD b []).length) =
              hd.length + ∑ b in Finset.range a2, (tl.getD b []).length := by
            rw [Finset.sum_range_succ']
            simp only [List.getD_cons_succ, List.getD_cons_zero]
            omega
          rw [hsum, List.flatten_cons]
          have e : hd.length + (∑ b in Finset.range a2,
              (tl.getD b []).length) + s =
              hd.length + ((∑ b in Finset.range a2,
                (tl.getD b []).length) + s) := by omega
          rw [e, List.getD_append_right _ _ _ _ (by omega)]
          have e2 : hd.length + ((∑ b in Finset.range a2,
              (tl.getD b []).length) + s) - hd.length =
              (∑ b in Finset.range a2, (tl.getD b []).length) + s := by omega
          rw [e2]
          exact ih a2 (by simpa using ha) hs

theorem flatZ_getD (z pbar : numvecvec) (a s : Nat) (ha : a < pbar.length)
    (hs : s < scount pbar a) :
    (flatZ z pbar).getD (aofs pbar a + s) (0, 0) = (a, zq z a s) := by
  unfold flatZ
  have hL : ∀ b, b < pbar.length →
      (((List.range pbar.length).map (fun a2 =>
        (List.range (scount pbar a2)).map (fun s2 => (a2, zq z a2 s2)))).getD
          b []) =
      (List.range (scount pbar b)).map (fun s2 => (b, zq z b s2)) := by
    intro b hb
    exact getD_map_range _ _ _ _ hb
  have hlen : ∀ b, b < pbar.length →
      (((List.range pbar.length).map (fun a2 =>
        (List.range (scount pbar a2)).map (fun s2 => (a2, zq z a2 s2)))).getD
          b []).length = scount pbar b := by
    intro b hb
    rw [hL b hb]
    simp
  have hofs : aofs pbar a = ∑ b in Finset.range a,
      (((List.range pbar.length).map (fun a2 =>
        (List.range (scount pbar a2)).map (fun s2 => (a2, zq z a2 s2)))).getD
          b []).length := by
    unfold aofs
    apply Finset.sum_congr rfl
    intro b hb
    rw [hlen b (by simp only [Finset.mem_range] at hb; omega)]
  rw [hofs, getD_flatten_at _ a s _ (by simpa using ha)
    (by rw [hlen a ha]; exact hs), hL a ha, getD_map_range _ _ _ _ hs]

/-! ## Evaluation of the attaining assignment -/

theorem vstar_x (z pbar : numvecvec) (k : Nat) (lam : ℚ) (a : Nat)
    (ha : a < pbar.length) : vstar z pbar k lam (xIdx a) = 0 := by
  unfold vstar xIdx
  rw [if_pos ha]

theorem vstar_yp (z pbar : numvecvec) (k : Nat) (lam : ℚ) (i : Nat)
    (hi : i < nsa pbar) :
    vstar z pbar k lam (ypIdx pbar.length i) =
      (if ((flatZ z pbar).getD i (0, 0)).1 = k then
        max (-(((flatZ z pbar).getD i (0, 0)).2)) 0 else 0) := by
  unfold vstar ypIdx
  rw [if_neg (by omega), if_pos (by omega)]
  simp only [Nat.add_sub_cancel_left]

theorem vstar_yn (z pbar : numvecvec) (k : Nat) (lam : ℚ) (i : Nat)
    (hi : i < nsa pbar) :
    vstar z pbar k lam (ynIdx pbar.length (nsa pbar) i) =
      (if ((flatZ z pbar).getD i (0, 0)).1 = k then
        max (((flatZ z pbar).getD i (0, 0)).2) 0 else 0) := by
  unfold vstar ynIdx
  rw [if_neg (by omega), if_neg (by omega), if_pos (by omega)]
  have e : pbar.length + nsa pbar + i - (pbar.length + nsa pbar) = i := by
    omega
  rw [e]

theorem vstar_lam (z pbar : numvecvec) (k : Nat) (lam : ℚ) :
    vstar z pbar k lam (lamIdx pbar.length (nsa pbar)) = lam := by
  unfold vstar lamIdx
  rw [if_neg (by omega), if_neg (by omega), if_neg (by omega), if_pos rfl]

theorem vstar_d (z pbar : numvecvec) (k : Nat) (lam : ℚ) (a : Nat) :
    vstar z pbar k lam (dIdx pbar.length (nsa pbar) a) =
      (if a = k then 1 else 0) := by
  unfold vstar dIdx
  rw [if_neg (by omega), if_neg (by omega), if_neg (by omega),
    if_neg (by omega)]
  by_cases h : a = k
  · subst h; rw [if_pos rfl, if_pos rfl]
  · rw [if_neg (by omega), if_neg h]

/-! ## The kappa = 0 value of both models -/

theorem amended_obj_kappa (pbar : numvecvec) (k1 k2 : ℚ) (v : Nat → ℚ) :
    amended_l1_objective pbar k2 v = amended_l1_objective pbar k1 v -
      (k2 - k1) * v (lamIdx pbar.length (nsa pbar)) := by
  unfold amended_l1_objective
  ring

/-- Per-action upper bound: multiplying each `"P"` row by the probability
`pbar[a][s]` and summing gives
`x_a − Σ_s pbar[a][s]·(yp − yn) ≤ d_a · (z[a]·pbar[a])`. -/
theorem l1_action_upper (z pbar : numvecvec) (v : Nat → ℚ) (a : Nat)
    (ha : a < pbar.length)
    (hnn : ∀ s, s < scount pbar a → 0 ≤ zq pbar a s)
    (hsum : ∑ s in Finset.range (scount pbar a), zq pbar a s = 1)
    (hp : ∀ s, s < scount pbar a →
      v (xIdx a) - v (ypIdx pbar.length (aofs pbar a + s)) +
        v (ynIdx pbar.length (nsa pbar) (aofs pbar a + s)) -
        zq z a s * v (dIdx pbar.length (nsa pbar) a) ≤ 0) :
    v (xIdx a) - (∑ s in Finset.range (scount pbar a),
      zq pbar a s * (v (ypIdx pbar.length (aofs pbar a + s)) -
        v (ynIdx pbar.length (nsa pbar) (aofs pbar a + s)))) ≤
    cval z pbar a * v (dIdx pbar.length (nsa pbar) a) := by
  have key : ∑ s in Finset.range (scount pbar a),
      zq pbar a s * (v (xIdx a) - v (ypIdx pbar.length (aofs pbar a + s)) +
        v (ynIdx pbar.length (nsa pbar) (aofs pbar a + s)) -
        zq z a s * v (dIdx pbar.length (nsa pbar) a)) ≤ 0 := by
    apply Finset.sum_nonpos
    intro s hs
    rw [Finset.mem_range] at hs
    have h1 := hnn s hs
    have h2 := hp s hs
    exact mul_nonpos_of_nonneg_of_nonpos h1 h2
  have expand : ∑ s in Finset.range (scount pbar a),
      zq pbar a s * (v (xIdx a) - v (ypIdx pbar.length (aofs pbar a + s)) +
        v (ynIdx pbar.length (nsa pbar) (aofs pbar a + s)) -
        zq z a s * v (dIdx pbar.length (nsa pbar) a)) =
      (∑ s in Finset.range (scount pbar a), zq pbar a s) * v (xIdx a) -
      (∑ s in Finset.range (scount pbar a),
        zq pbar a s * (v (ypIdx pbar.length (aofs pbar a + s)) -
          v (ynIdx pbar.length (nsa pbar) (aofs pbar a + s)))) -
      cval z pbar a * v (dIdx pbar.length (nsa pbar) a) := by
    unfold cval
    rw [Finset.sum_mul, Finset.sum_mul, ← Finset.sum_sub_distrib,
      ← Finset.sum_sub_distrib]
    apply Finset.sum_congr rfl
    intro s _
    ring
  rw [expand, hsum, one_mul] at key
  linarith

/-- The upper bound: any feasible point of either `kappa = 0` model (with
the policy optimized, i.e. under `Σ_a d_a = 1` and `d ≥ 0`) has objective
at most the non-robust value. -/
theorem srect_upper_bound (z pbar : numvecvec) (v : Nat → ℚ)
    (hdist : DistRows pbar)
    (hd : ∀ a, a < pbar.length → 0 ≤ v (dIdx pbar.length (nsa pbar) a))
    (hdsum : ∑ a in Finset.range pbar.length,
      v (dIdx pbar.length (nsa pbar) a) = 1)
    (hp : ∀ a, a < pbar.length → ∀ s, s < scount pbar a →
      v (xIdx a) - v (ypIdx pbar.length (aofs pbar a + s)) +
        v (ynIdx pbar.length (nsa pbar) (aofs pbar a + s)) -
        zq z a s * v (dIdx pbar.length (nsa pbar) a) ≤ 0) :
    amended_l1_objective pbar 0 v ≤ nonrobustVal z pbar := by
  have hsplit : amended_l1_objective pbar 0 v =
      ∑ a in Finset.range pbar.length,
        (v (xIdx a) - (∑ s in Finset.range (scount pbar a),
          zq pbar a s * (v (ypIdx pbar.length (aofs pbar a + s)) -
            v (ynIdx pbar.length (nsa pbar) (aofs pbar a + s))))) := by
    unfold amended_l1_objective
    rw [← Finset.sum_sub_distrib]
    ring
  rw [hsplit]
  have step1 : ∑ a in Finset.range pbar.length,
      (v (xIdx a) - (∑ s in Finset.range (scount pbar a),
        zq pbar a s * (v (ypIdx pbar.length (aofs pbar a + s)) -
          v (ynIdx pbar.length (nsa pbar) (aofs pbar a + s))))) ≤
      ∑ a in Finset.range pbar.length,
        cval z pbar a * v (dIdx pbar.length (nsa pbar) a) := by
    apply Finset.sum_le_sum
    intro a ha
    rw [Finset.mem_range] at ha
    exact l1_action_upper z pbar v a ha (hdist a ha).1 (hdist a ha).2
      (hp a ha)
  have step2 : ∑ a in Finset.range pbar.length,
      cval z pbar a * v (dIdx pbar.length (nsa pbar) a) ≤
      ∑ a in Finset.range pbar.length,
        nonrobustVal z pbar * v (dIdx pbar.length (nsa pbar) a) := by
    apply Finset.sum_le_sum
    intro a ha
    rw [Finset.mem_range] at ha
    exact mul_le_mul_of_nonneg_right (cval_le_nonrobust z pbar a ha)
      (hd a ha)
  have step3 : ∑ a in Finset.range pbar.length,
      nonrobustVal z pbar * v (dIdx pbar.length (nsa pbar) a) =
      nonrobustVal z pbar := by
    rw [← Finset.mul_sum, hdsum, mul_one]
  linarith

/-! ## Attainment at kappa = 0 -/

theorem max_sub_max (q : ℚ) : max q 0 - max (-q) 0 = q := by
  rcases le_total q 0 with h | h
  · rw [max_eq_right h, max_eq_left (by linarith)]; ring
  · rw [max_eq_left h, max_eq_right (by linarith)]; ring

theorem max_add_max (q : ℚ) : max (-q) 0 + max q 0 = |q| := by
  rcases le_total q 0 with h | h
  · rw [max_eq_right h, max_eq_left (by linarith), abs_of_nonpos h]; ring
  · rw [max_eq_left h, max_eq_right (by linarith), abs_of_nonneg h]; ring

theorem l1LamBig_nonneg (z pbar w : numvecvec) (hw : PosWeights w pbar) :
    0 ≤ l1LamBig z pbar w := by
  apply Finset.sum_nonneg
  intro a ha
  apply Finset.sum_nonneg
  intro s hs
  rw [Finset.mem_range] at ha hs
  exact div_nonneg (abs_nonneg _) (le_of_lt (hw a ha s hs))

theorem linfLamBig_nonneg (z pbar : numvecvec) : 0 ≤ linfLamBig z pbar := by
  apply Finset.sum_nonneg
  intro a _
  apply Finset.sum_nonneg
  intro s _
  exact abs_nonneg _

theorem l1LamBig_big (z pbar w : numvecvec) (hw : PosWeights w pbar)
    (a s : Nat) (ha : a < pbar.length) (hs : s < scount pbar a) :
    |zq z a s| ≤ wq w a s * l1LamBig z pbar w := by
  have hterm : |zq z a s| / wq w a s ≤ l1LamBig z pbar w := by
    unfold l1LamBig
    calc |zq z a s| / wq w a s ≤
        ∑ s2 in Finset.range (scount pbar a), |zq z a s2| / wq w a s2 :=
          Finset.single_le_sum (f := fun s2 => |zq z a s2| / wq w a s2)
            (fun s2 hs2 => div_nonneg (abs_nonneg _)
              (le_of_lt (hw a ha s2 (Finset.mem_range.1 hs2))))
            (Finset.mem_range.2 hs)
      _ ≤ ∑ a2 in Finset.range pbar.length,
            ∑ s2 in Finset.range (scount pbar a2), |zq z a2 s2| / wq w a2 s2 :=
          Finset.single_le_sum
            (f := fun a2 => ∑ s2 in Finset.range (scount pbar a2),
              |zq z a2 s2| / wq w a2 s2)
            (fun a2 ha2 => Finset.sum_nonneg (fun s2 hs2 =>
              div_nonneg (abs_nonneg _) (le_of_lt
                (hw a2 (Finset.mem_range.1 ha2) s2 (Finset.mem_range.1 hs2)))))
            (Finset.mem_range.2 ha)
  have hpos := hw a ha s hs
  calc |zq z a s| = |zq z a s| / wq w a s * wq w a s := by
        rw [div_mul_cancel₀ _ (ne_of_gt hpos)]
    _ ≤ l1LamBig z pbar w * wq w a s :=
        mul_le_mul_of_nonneg_right hterm (le_of_lt hpos)
    _ = wq w a s * l1LamBig z pbar w := by ring

theorem linfLamBig_big (z pbar : numvecvec) (a : Nat) (ha : a < pbar.length) :
    ∑ s in Finset.range (scount pbar a), |zq z a s| ≤ linfLamBig z pbar := by
  unfold linfLamBig
  exact Finset.single_le_sum
    (f := fun a2 => ∑ s2 in Finset.range (scount pbar a2), |zq z a2 s2|)
    (fun a2 _ => Finset.sum_nonneg (fun s2 _ => abs_nonneg _))
    (Finset.mem_range.2 ha)

theorem l1_attain_feas (z pbar w : numvecvec) (hdist : DistRows pbar)
    (hw : PosWeights w pbar) (k : Nat) (hk : k < pbar.length) :
    L1Feas z pbar w [] (vstar z pbar k (l1LamBig z pbar w)) := by
  refine ⟨?_, ?_, ?_, ?_, ?_, ?_, ?_, ?_⟩
  · intro i hi
    rw [vstar_yp z pbar k _ i hi]
    split
    · exact le_max_right _ _
    · exact le_refl 0
  · intro i hi
    rw [vstar_yn z pbar k _ i hi]
    split
    · exact le_max_right _ _
    · exact le_refl 0
  · rw [vstar_lam]
    exact l1LamBig_nonneg z pbar w hw
  · intro a _
    rw [vstar_d]
    split
    · exact zero_le_one
    · exact le_refl 0
  · intro _
    have he : ∀ a ∈ Finset.range pbar.length,
        vstar z pbar k (l1LamBig z pbar w)
          (dIdx pbar.length (nsa pbar) a) =
        (if a = k then (1 : ℚ) else 0) := by
      intro a _
      exact vstar_d z pbar k _ a
    rw [Finset.sum_congr rfl he, Finset.sum_ite_eq' (Finset.range pbar.length)
      k (fun _ => (1 : ℚ)), if_pos (Finset.mem_range.2 hk)]
  · intro a ha
    exact absurd ha (by simp)
  · intro a ha s hs
    have hi := aofs_add_lt pbar a s ha hs
    rw [vstar_x z pbar k _ a ha, vstar_yp z pbar k _ _ hi,
      vstar_yn z pbar k _ _ hi, vstar_d, flatZ_getD z pbar a s ha hs]
    simp only
    by_cases hak : a = k
    · subst hak
      rw [if_pos rfl, if_pos rfl, if_pos rfl]
      have := max_sub_max (zq z a s)
      linarith
    · rw [if_neg hak, if_neg hak, if_neg hak]
      norm_num
  · intro a ha s hs
    have hi := aofs_add_lt pbar a s ha hs
    rw [vstar_yp z pbar k _ _ hi, vstar_yn z pbar k _ _ hi, vstar_lam,
      flatZ_getD z pbar a s ha hs]
    simp only
    by_cases hak : a = k
    · subst hak
      rw [if_pos rfl, if_pos rfl]
      have h1 := max_add_max (zq z a s)
      have h2 := l1LamBig_big z pbar w hw a s ha hs
      linarith
    · rw [if_neg hak, if_neg hak]
      have h1 := mul_nonneg (le_of_lt (hw a ha s hs))
        (l1LamBig_nonneg z pbar w hw)
      linarith

theorem linf_attain_feas (z pbar : numvecvec) (hdist : DistRows pbar)
    (k : Nat) (hk : k < pbar.length) :
    LinfFeas z pbar (vstar z pbar k (linfLamBig z pbar)) := by
  refine ⟨?_, ?_, ?_, ?_, ?_, ?_, ?_⟩
  · intro i hi
    rw [vstar_yp z pbar k _ i hi]
    split
    · exact le_max_right _ _
    · exact le_refl 0
  · intro i hi
    rw [vstar_yn z pbar k _ i hi]
    split
    · exact le_max_right _ _
    · exact le_refl 0
  · rw [vstar_lam]
    exact linfLamBig_nonneg z pbar
  · intro a _
    rw [vstar_d]
    split
    · exact zero_le_one
    · exact le_refl 0
  · have he : ∀ a ∈ Finset.range pbar.length,
        vstar z pbar k (linfLamBig z pbar)
          (dIdx pbar.length (nsa pbar) a) =
        (if a = k then (1 : ℚ) else 0) := by
      intro a _
      exact vstar_d z pbar k _ a
    rw [Finset.sum_congr rfl he, Finset.sum_ite_eq' (Finset.range pbar.length)
      k (fun _ => (1 : ℚ)), if_pos (Finset.mem_range.2 hk)]
  · intro a ha s hs
    have hi := aofs_add_lt pbar a s ha hs
    rw [vstar_x z pbar k _ a ha, vstar_yp z pbar k _ _ hi,
      vstar_yn z pbar k _ _ hi, vstar_d, flatZ_getD z pbar a s ha hs]
    simp only
    by_cases hak : a = k
    · subst hak
      rw [if_pos rfl, if_pos rfl, if_pos rfl]
      have := max_sub_max (zq z a s)
      linarith
    · rw [if_neg hak, if_neg hak, if_neg hak]
      norm_num
  · intro a ha
    rw [vstar_lam]
    have he : ∀ s ∈ Finset.range (scount pbar a),
        vstar z pbar k (linfLamBig z pbar)
            (ypIdx pbar.length (aofs pbar a + s)) +
          vstar z pbar k (linfLamBig z pbar)
            (ynIdx pbar.length (nsa pbar) (aofs pbar a + s)) =
        (if a = k then |zq z a s| else 0) := by
      intro s hs
      rw [Finset.mem_range] at hs
      have hi := aofs_add_lt pbar a s ha hs
      rw [vstar_yp z pbar k _ _ hi, vstar_yn z pbar k _ _ hi,
        flatZ_getD z pbar a s ha hs]
      simp only
      by_cases hak : a = k
      · rw [if_pos hak, if_pos hak, if_pos hak]
        exact max_add_max (zq z a s)
      · rw [if_neg hak, if_neg hak, if_neg hak]
        ring
    rw [Finset.sum_congr rfl he]
    by_cases hak : a = k
    · subst hak
      simp only [eq_self_iff_true, if_true]
      have := linfLamBig_big z pbar a ha
      linarith
    · simp only [if_neg hak]
      have := linfLamBig_nonneg z pbar
      simp only [Finset.sum_const_zero]
      linarith

theorem srect_attain_obj (z pbar : numvecvec) (k : Nat)
    (hk : k < pbar.length) (lam : ℚ) :
    amended_l1_objective pbar 0 (vstar z pbar k lam) = cval z pbar k := by
  have hsplit : amended_l1_objective pbar 0 (vstar z pbar k lam) =
      ∑ a in Finset.range pbar.length,
        (vstar z pbar k lam (xIdx a) - (∑ s in Finset.range (scount pbar a),
          zq pbar a s * (vstar z pbar k lam
              (ypIdx pbar.length (aofs pbar a + s)) -
            vstar z pbar k lam
              (ynIdx pbar.length (nsa pbar) (aofs pbar a + s))))) := by
    unfold amended_l1_objective
    rw [← Finset.sum_sub_distrib]
    ring
  rw [hsplit]
  rw [Finset.sum_eq_single_of_mem k (Finset.mem_range.2 hk)]
  · have he : ∀ s ∈ Finset.range (scount pbar k),
        zq pbar k s * (vstar z pbar k lam
            (ypIdx pbar.length (aofs pbar k + s)) -
          vstar z pbar k lam
            (ynIdx pbar.length (nsa pbar) (aofs pbar k + s))) =
        -(zq z k s * zq pbar k s) := by
      intro s hs
      rw [Finset.mem_range] at hs
      have hi := aofs_add_lt pbar k s hk hs
      rw [vstar_yp z pbar k _ _ hi, vstar_yn z pbar k _ _ hi,
        flatZ_getD z pbar k s hk hs]
      simp only [eq_self_iff_true, if_true]
      have h2 : max (-(zq z k s)) 0 - max (zq z k s) 0 = -(zq z k s) := by
        have := max_sub_max (zq z k s)
        linarith
      rw [h2]
      ring
    rw [Finset.sum_congr rfl he, vstar_x z pbar k _ k hk]
    unfold cval
    rw [Finset.sum_neg_distrib]
    ring
  · intro a ha hak
    rw [Finset.mem_range] at ha
    have he : ∀ s ∈ Finset.range (scount pbar a),
        zq pbar a s * (vstar z pbar k lam
            (ypIdx pbar.length (aofs pbar a + s)) -
          vstar z pbar k lam
            (ynIdx pbar.length (nsa pbar) (aofs pbar a + s))) = 0 := by
      intro s hs
      rw [Finset.mem_range] at hs
      have hi := aofs_add_lt pbar a s ha hs
      rw [vstar_yp z pbar k _ _ hi, vstar_yn z pbar k _ _ hi,
        flatZ_getD z pbar a s ha hs]
      simp only [if_neg hak]
      ring
    rw [Finset.sum_congr rfl he, vstar_x z pbar k _ a ha]
    simp

/-- Optimal value of the L1 model at `kappa = 0` (positive weights). -/
theorem l1_kappa0_optimal (z pbar w : numvecvec) (hne : pbar ≠ [])
    (hdist : DistRows pbar) (hw : PosWeights w pbar) :
    IsOptimalValue (srect_l1_model z pbar w 0 []) (nonrobustVal z pbar) := by
  obtain ⟨k, hk, hck⟩ := nonrobust_attained z pbar hne
  constructor
  · refine ⟨vstar z pbar k (l1LamBig z pbar w), ?_, ?_⟩
    · exact (feasible_l1_iff z pbar w 0 [] _).2
        (l1_attain_feas z pbar w hdist hw k hk)
    · rw [objEval_l1, srect_attain_obj z pbar k hk, hck]
  · intro v hv
    have hf := (feasible_l1_iff z pbar w 0 [] v).1 hv
    rw [objEval_l1]
    exact srect_upper_bound z pbar v hdist hf.d_nonneg (hf.policy_sum rfl)
      hf.pcons

/-- Optimal value of the L-infinity model at `kappa = 0` (any weights). -/
theorem linf_kappa0_optimal (z pbar w : numvecvec) (hne : pbar ≠ [])
    (hdist : DistRows pbar) :
    IsOptimalValue (srect_linf_model z pbar 0 w) (nonrobustVal z pbar) := by
  obtain ⟨k, hk, hck⟩ := nonrobust_attained z pbar hne
  constructor
  · refine ⟨vstar z pbar k (linfLamBig z pbar), ?_, ?_⟩
    · exact (feasible_linf_iff z pbar 0 w _).2
        (linf_attain_feas z pbar hdist k hk)
    · rw [objEval_linf, srect_attain_obj z pbar k hk, hck]
  · intro v hv
    have hf := (feasible_linf_iff z pbar 0 w v).1 hv
    rw [objEval_linf]
    exact srect_upper_bound z pbar v hdist hf.d_nonneg hf.policy_sum hf.pcons

theorem optimal_value_unique (m : Model) (v1 v2 : ℚ)
    (h1 : IsOptimalValue m v1) (h2 : IsOptimalValue m v2) : v1 = v2 := by
  obtain ⟨⟨p1, hf1, he1⟩, hb1⟩ := h1
  obtain ⟨⟨p2, hf2, he2⟩, hb2⟩ := h2
  have l1 := hb2 p1 hf1
  have l2 := hb1 p2 hf2
  rw [he1] at l1
  rw [he2] at l2
  linarith

/-! ## The zero-weight counterexample instance -/

theorem zw_feas : L1Feas zZW pbarZW wZW [] vZW := by
  refine ⟨?_, ?_, ?_, ?_, ?_, ?_, ?_, ?_⟩
  · intro i hi
    norm_num [nsa, scount, pbarZW, Finset.sum_range_succ] at hi
    interval_cases i <;> norm_num [vZW, ypIdx, nsa, scount, pbarZW,
      Finset.sum_range_succ]
  · intro i hi
    norm_num [nsa, scount, pbarZW, Finset.sum_range_succ] at hi
    interval_cases i <;> norm_num [vZW, ynIdx, nsa, scount, pbarZW,
      Finset.sum_range_succ]
  · norm_num [vZW, lamIdx, nsa, scount, pbarZW, Finset.sum_range_succ]
  · intro a ha
    norm_num [pbarZW] at ha
    norm_num [ha, vZW, dIdx, nsa, scount, pbarZW, Finset.sum_range_succ]
  · intro _
    norm_num [vZW, dIdx, nsa, scount, pbarZW, Finset.sum_range_succ]
  · intro a ha
    exact absurd ha (by simp)
  · intro a ha s hs
    norm_num [pbarZW] at ha
    subst ha
    norm_num [scount, pbarZW] at hs
    interval_cases s <;>
      norm_num [vZW, xIdx, ypIdx, ynIdx, dIdx, aofs, nsa, scount, zq,
        pbarZW, zZW, Finset.sum_range_succ, Finset.sum_range_zero]
  · intro a ha s hs
    norm_num [pbarZW] at ha
    subst ha
    norm_num [scount, pbarZW] at hs
    interval_cases s <;>
      norm_num [vZW, ypIdx, ynIdx, lamIdx, aofs, nsa, scount, wq,
        pbarZW, wZW, Finset.sum_range_succ, Finset.sum_range_zero]

theorem zw_optimal : IsOptimalValue (srect_l1_model zZW pbarZW wZW 0 []) 0 := by
  constructor
  · refine ⟨vZW, (feasible_l1_iff zZW pbarZW wZW 0 [] vZW).2 zw_feas, ?_⟩
    rw [objEval_l1]
    norm_num [amended_l1_objective, vZW, xIdx, ypIdx, ynIdx, lamIdx,
      aofs, nsa, scount, zq, pbarZW, Finset.sum_range_succ,
      Finset.sum_range_zero]
  · intro v hv
    have hf := (feasible_l1_iff zZW pbarZW wZW 0 [] v).1 hv
    rw [objEval_l1]
    have hN : nsa pbarZW = 2 := by
      norm_num [nsa, scount, pbarZW, Finset.sum_range_succ]
    have hyp0 := hf.yp_nonneg 0 (by omega)
    have hyp1 := hf.yp_nonneg 1 (by omega)
    have hyn0 := hf.yn_nonneg 0 (by omega)
    have hyn1 := hf.yn_nonneg 1 (by omega)
    have hpsi0 := hf.psicons 0 (by norm_num [pbarZW]) 0
      (by norm_num [scount, pbarZW])
    have hpsi1 := hf.psicons 0 (by norm_num [pbarZW]) 1
      (by norm_num [scount, pbarZW])
    have hpc0 := hf.pcons 0 (by norm_num [pbarZW]) 0
      (by norm_num [scount, pbarZW])
    norm_num [ypIdx, ynIdx, lamIdx, xIdx, dIdx, aofs, nsa, scount, zq, wq,
      pbarZW, zZW, wZW, Finset.sum_range_succ, Finset.sum_range_zero]
      at hyp0 hyp1 hyn0 hyn1 hpsi0 hpsi1 hpc0
    norm_num [amended_l1_objective, xIdx, ypIdx, ynIdx, lamIdx, aofs, nsa,
      scount, zq, pbarZW, Finset.sum_range_succ, Finset.sum_range_zero]
    linarith

/-! ## Instance facts for the concrete scenario -/

theorem pbarHalf_dist : DistRows pbarHalf := by
  intro a ha
  norm_num [pbarHalf] at ha
  interval_cases a <;>
    exact ⟨by
      intro s hs
      norm_num [scount, pbarHalf] at hs
      interval_cases s <;> norm_num [zq, pbarHalf],
      by norm_num [scount, zq, pbarHalf, Finset.sum_range_succ]⟩

theorem shapeHalf : ShapeOK zHalf pbarHalf := by
  refine ⟨rfl, ?_⟩
  intro a ha
  norm_num [pbarHalf] at ha
  interval_cases a <;> norm_num [zHalf, pbarHalf, scount]

theorem posw_empty (pbar : numvecvec) : PosWeights [] pbar := by
  intro a _ s _
  norm_num [wq]

theorem nonrobustHalf : nonrobustVal zHalf pbarHalf = 1/2 := by
  norm_num [nonrobustVal, cval, maxD, zq, scount, zHalf, pbarHalf,
    List.range_succ, List.range_zero, Finset.sum_range_succ,
    Finset.sum_range_zero]

theorem zwDist : DistRows pbarZW := by
  intro a ha
  norm_num [pbarZW] at ha
  subst ha
  refine ⟨?_, by norm_num [scount, zq, pbarZW, Finset.sum_range_succ]⟩
  intro s hs
  norm_num [scount, pbarZW] at hs
  interval_cases s <;> norm_num [zq, pbarZW]

theorem zwShape : ShapeOK zZW pbarZW := by
  refine ⟨rfl, ?_⟩
  intro a ha
  norm_num [pbarZW] at ha
  subst ha
  norm_num [zZW, pbarZW, scount]

theorem zwVal : nonrobustVal zZW pbarZW = 1/2 := by
  norm_num [nonrobustVal, cval, maxD, zq, scount, zZW, pbarZW,
    List.range_succ, List.range_zero, Finset.sum_range_succ,
    Finset.sum_range_zero]

/-- C2 is false as stated: `z = [[0,1]]`, `pbar = [[1/2,1/2]]` (a valid
distribution), `kappa = 0` and the zero weight matrix `w = [[0,0]]` give an
LP whose optimum is `0`, while the non-robust value
`max_d Σ_a d_a (z[a]·pbar[a])` is `1/2`. -/
theorem l1_kappa0_not_nonrobust :
    DistRows pbarZW ∧ ShapeOK zZW pbarZW ∧
    nonrobustVal zZW pbarZW = 1/2 ∧
    IsOptimalValue (srect_l1_model zZW pbarZW wZW 0 []) 0 ∧
    ¬ IsOptimalValue (srect_l1_model zZW pbarZW wZW 0 [])
        (nonrobustVal zZW pbarZW) := by
  refine ⟨zwDist, zwShape, zwVal, zw_optimal, ?_⟩
  intro hopt
  have h := optimal_value_unique _ _ _ zw_optimal hopt
  rw [zwVal] at h
  norm_num at h

/-- C2 (amended): with `kappa = 0` and *strictly positive* effective
weights (in particular the default all-ones weights) the L1 objective
returned at optimal status equals the non-robust value
`max_d Σ_a d_a·(z[a]·pbar[a])`; for the L-infinity model (whose builder
ignores `w`) the same holds with no weight restriction; on the concrete
scenario both solves return objective `1/2`.  (Without the positivity
restriction the L1 statement fails — see the counterexample.) -/
theorem kappa0_objective_amended :
    (∀ (z pbar w : numvecvec) (s : Sol), pbar ≠ [] → ShapeOK z pbar →
      DistRows pbar → PosWeights w pbar →
      SolvedOptimally (srect_l1_model z pbar w 0 []) s →
      s.objval = nonrobustVal z pbar) ∧
    (∀ (z pbar w : numvecvec) (s : Sol), pbar ≠ [] → ShapeOK z pbar →
      DistRows pbar →
      SolvedOptimally (srect_linf_model z pbar 0 w) s →
      s.objval = nonrobustVal z pbar) ∧
    nonrobustVal zHalf pbarHalf = 1/2 ∧
    (∀ (s : Sol) (r : ℚ × numvec × numvec),
      SolvedOptimally (srect_l1_model zHalf pbarHalf [] 0 []) s →
      srect_l1_solve_gurobi ⟨Status.optimal, some s⟩ zHalf pbarHalf 0 [] []
        = Except.ok r → r.1 = 1/2) ∧
    (∀ (s : Sol) (r : ℚ × numvec × numvec),
      SolvedOptimally (srect_linf_model zHalf pbarHalf 0 []) s →
      srect_linf_solve_gurobi ⟨Status.optimal, some s⟩ zHalf pbarHalf 0 []
        = Except.ok r → r.1 = 1/2) := by
  have hL1 : ∀ (z pbar w : numvecvec) (s : Sol), pbar ≠ [] →
      ShapeOK z pbar → DistRows pbar → PosWeights w pbar →
      SolvedOptimally (srect_l1_model z pbar w 0 []) s →
      s.objval = nonrobustVal z pbar := by
    intro z pbar w s hne _ hd hw hso
    exact optimal_value_unique _ _ _ ⟨⟨s.xv, hso.1, hso.2.1⟩, hso.2.2⟩
      (l1_kappa0_optimal z pbar w hne hd hw)
  have hLinf : ∀ (z pbar w : numvecvec) (s : Sol), pbar ≠ [] →
      ShapeOK z pbar → DistRows pbar →
      SolvedOptimally (srect_linf_model z pbar 0 w) s →
      s.objval = nonrobustVal z pbar := by
    intro z pbar w s hne _ hd hso
    exact optimal_value_unique _ _ _ ⟨⟨s.xv, hso.1, hso.2.1⟩, hso.2.2⟩
      (linf_kappa0_optimal z pbar w hne hd)
  refine ⟨hL1, hLinf, nonrobustHalf, ?_, ?_⟩
  · intro s r hso hok
    have hs : s.objval = 1/2 := by
      rw [hL1 zHalf pbarHalf [] s (by intro h; simp [pbarHalf] at h) shapeHalf
        pbarHalf_dist (posw_empty pbarHalf) hso, nonrobustHalf]
    have ha : l1_input_asserts zHalf pbarHalf [] [] = true := by
      norm_num [l1_input_asserts, zHalf, pbarHalf]
    have hc : srect_l1_solve_gurobi ⟨Status.optimal, some s⟩ zHalf pbarHalf
        0 [] [] = Except.ok (s.objval,
          extract_policy pbarHalf.length (nsa pbarHalf) s,
          l1_budgets (srect_l1_model zHalf pbarHalf [] 0 []) s) := by
      simp [srect_l1_solve_gurobi, ha]
    rw [hc] at hok
    injection hok with h
    rw [← h]
    exact hs
  · intro s r hso hok
    have hs : s.objval = 1/2 := by
      rw [hLinf zHalf pbarHalf [] s (by intro h; simp [pbarHalf] at h) shapeHalf
        pbarHalf_dist hso, nonrobustHalf]
    have ha : linf_input_asserts zHalf pbarHalf [] = true := by
      norm_num [linf_input_asserts, zHalf, pbarHalf]
    have hc : srect_linf_solve_gurobi ⟨Status.optimal, some s⟩ zHalf
        pbarHalf 0 [] = Except.ok (s.objval,
          extract_policy pbarHalf.length (nsa pbarHalf) s,
          linf_budgets pbarHalf.length
            (srect_linf_model zHalf pbarHalf 0 []) s) := by
      simp [srect_linf_solve_gurobi, ha]
    rw [hc] at hok
    injection hok with h
    rw [← h]
    exact hs

/-- The concrete solver oracle `solHalf` is optimal for the L1 model of the
concrete scenario. -/
theorem solHalf_l1_opt :
    SolvedOptimally (srect_l1_model zHalf pbarHalf [] 0 []) solHalf := by
  have hopt := l1_kappa0_optimal zHalf pbarHalf [] (by intro h; simp [pbarHalf] at h)
    pbarHalf_dist (posw_empty pbarHalf)
  refine ⟨?_, ?_, ?_⟩
  · apply (feasible_l1_iff zHalf pbarHalf [] 0 [] vHalf).2
    refine ⟨?_, ?_, ?_, ?_, ?_, ?_, ?_, ?_⟩
    · intro i hi
      norm_num [nsa, scount, pbarHalf, Finset.sum_range_succ] at hi
      interval_cases i <;> norm_num [vHalf, ypIdx, nsa, scount, pbarHalf,
        Finset.sum_range_succ]
    · intro i hi
      norm_num [nsa, scount, pbarHalf, Finset.sum_range_succ] at hi
      interval_cases i <;> norm_num [vHalf, ynIdx, nsa, scount, pbarHalf,
        Finset.sum_range_succ]
    · norm_num [vHalf, lamIdx, nsa, scount, pbarHalf, Finset.sum_range_succ]
    · intro a ha
      norm_num [pbarHalf] at ha
      interval_cases a <;> norm_num [vHalf, dIdx, nsa, scount, pbarHalf,
        Finset.sum_range_succ]
    · intro _
      norm_num [vHalf, dIdx, nsa, scount, pbarHalf, Finset.sum_range_succ]
    · intro a ha
      exact absurd ha (by simp)
    · intro a ha s hs
      norm_num [pbarHalf] at ha
      interval_cases a <;>
        norm_num [scount, pbarHalf] at hs <;>
        interval_cases s <;>
          norm_num [vHalf, xIdx, ypIdx, ynIdx, dIdx, aofs, nsa, scount, zq,
            pbarHalf, zHalf, Finset.sum_range_succ, Finset.sum_range_zero]
    · intro a ha s hs
      norm_num [pbarHalf] at ha
      interval_cases a <;>
        norm_num [scount, pbarHalf] at hs <;>
        interval_cases s <;>
          norm_num [vHalf, ypIdx, ynIdx, lamIdx, aofs, nsa, scount, wq,
            pbarHalf, Finset.sum_range_succ, Finset.sum_range_zero]
  · rw [objEval_l1]
    norm_num [amended_l1_objective, vHalf, xIdx, ypIdx, ynIdx, lamIdx,
      aofs, nsa, scount, zq, pbarHalf, solHalf, Finset.sum_range_succ,
      Finset.sum_range_zero]
    exact List.cons_ne_nil _ _
  · intro v hv
    have := hopt.2 v hv
    rw [nonrobustHalf] at this
    exact this

/-- Witness for the amended C2 theorem: the concrete scenario solved by
`solHalf` has objective `1/2 = nonrobustVal zHalf pbarHalf`. -/
theorem kappa0_objective_amended_witness :
    solHalf.objval = nonrobustVal zHalf pbarHalf ∧ solHalf.objval = 1/2 := by
  have h1 := kappa0_objective_amended.1 zHalf pbarHalf [] solHalf
    (by intro h; simp [pbarHalf] at h) shapeHalf pbarHalf_dist (posw_empty pbarHalf)
    solHalf_l1_opt
  exact ⟨h1, by rw [h1, kappa0_objective_amended.2.2.1]⟩

/-- C7: for fixed `(z, pbar, w)` (and, for L1, a fixed `policy_eval`), the
optimal objective is non-increasing in the budget `kappa`, for both the L1
and L-infinity formulations. -/
theorem objective_monotone_kappa :
    (∀ (z pbar w : numvecvec) (pe : numvec) (k1 k2 v1 v2 : ℚ),
      0 ≤ k1 → k1 ≤ k2 →
      IsOptimalValue (srect_l1_model z pbar w k1 pe) v1 →
      IsOptimalValue (srect_l1_model z pbar w k2 pe) v2 → v2 ≤ v1) ∧
    (∀ (z pbar w : numvecvec) (k1 k2 v1 v2 : ℚ),
      0 ≤ k1 → k1 ≤ k2 →
      IsOptimalValue (srect_linf_model z pbar k1 w) v1 →
      IsOptimalValue (srect_linf_model z pbar k2 w) v2 → v2 ≤ v1) := by
  constructor
  · intro z pbar w pe k1 k2 v1 v2 _ hk h1 h2
    obtain ⟨⟨p2, hf2, he2⟩, _⟩ := h2
    have hchar := (feasible_l1_iff z pbar w k2 pe p2).1 hf2
    have hfeas1 : Feasible (srect_l1_model z pbar w k1 pe) p2 :=
      (feasible_l1_iff z pbar w k1 pe p2).2 hchar
    have hub := h1.2 p2 hfeas1
    rw [objEval_l1] at hub
    rw [objEval_l1] at he2
    rw [amended_obj_kappa pbar k1 k2 p2] at he2
    have hprod : 0 ≤ (k2 - k1) * p2 (lamIdx pbar.length (nsa pbar)) :=
      mul_nonneg (by linarith) hchar.lam_nonneg
    linarith
  · intro z pbar w k1 k2 v1 v2 _ hk h1 h2
    obtain ⟨⟨p2, hf2, he2⟩, _⟩ := h2
    have hchar := (feasible_linf_iff z pbar k2 w p2).1 hf2
    have hfeas1 : Feasible (srect_linf_model z pbar k1 w) p2 :=
      (feasible_linf_iff z pbar k1 w p2).2 hchar
    have hub := h1.2 p2 hfeas1
    rw [objEval_linf] at hub
    rw [objEval_linf] at he2
    rw [amended_obj_kappa pbar k1 k2 p2] at he2
    have hprod : 0 ≤ (k2 - k1) * p2 (lamIdx pbar.length (nsa pbar)) :=
      mul_nonneg (by linarith) hchar.lam_nonneg
    linarith

/-- Witness for the monotonicity theorem, applied at the two concrete
optimal values established above (with `k1 = k2 = 0`). -/
theorem objective_monotone_kappa_witness :
    (0 : ℚ) ≤ 0 ∧
    nonrobustVal zHalf pbarHalf ≤ nonrobustVal zHalf pbarHalf := by
  constructor
  · exact objective_monotone_kappa.1 zZW pbarZW wZW [] 0 0 0 0
      (le_refl 0) (le_refl 0) zw_optimal zw_optimal
  · have hopt := linf_kappa0_optimal zHalf pbarHalf []
      (by intro h; simp [pbarHalf] at h) pbarHalf_dist
    exact objective_monotone_kappa.2 zHalf pbarHalf [] 0 0
      (nonrobustVal zHalf pbarHalf) (nonrobustVal zHalf pbarHalf)
      (le_refl 0) (le_refl 0) hopt hopt

/-! ## Dual columns of the L1 model -/

theorem colSumAux_append (l1 l2 : List Constr) (u : Nat → ℚ) (j0 i : Nat) :
    colSumAux (l1 ++ l2) u j0 i =
      colSumAux l1 u j0 i + colSumAux l2 u (j0 + l1.length) i := by
  induction l1 generalizing j0 with
  | nil => simp [colSumAux]
  | cons c rest ih =>
      have e : j0 + 1 + rest.length = j0 + (rest.length + 1) := by omega
      simp only [List.cons_append, colSumAux, List.length_cons,
        List.append_eq, ih (j0 + 1), e]
      ring

theorem coeffIn_append (t1 t2 : List (Nat × ℚ)) (i : Nat) :
    coeffIn (t1 ++ t2) i = coeffIn t1 i + coeffIn t2 i := by
  unfold coeffIn
  rw [List.map_append, List.sum_append]

theorem coeffIn_zero (t : List (Nat × ℚ)) (i : Nat)
    (h : ∀ p ∈ t, p.1 ≠ i) : coeffIn t i = 0 := by
  induction t with
  | nil => rfl
  | cons p rest ih =>
      simp only [coeffIn, List.map_cons, List.sum_cons]
      rw [if_neg (h p (List.mem_cons_self p rest))]
      have := ih (fun q hq => h q (List.mem_cons_of_mem p hq))
      simp only [coeffIn] at this
      rw [this, zero_add]

theorem colSumAux_flatten_range (F : Nat → List Constr) (n : Nat)
    (u : Nat → ℚ) (j0 i : Nat) :
    colSumAux ((List.range n).map F).flatten u j0 i =
      ∑ a in Finset.range n,
        colSumAux (F a) u (j0 + ((List.range a).map F).flatten.length) i := by
  induction n with
  | zero => simp [colSumAux]
  | succ m ih =>
      rw [List.range_succ, List.map_append, List.flatten_append,
        colSumAux_append, ih, Finset.sum_range_succ]
      simp

theorem dualsByName_flatten_range (F : Nat → List Constr) (n : Nat)
    (u : Nat → ℚ) (j0 : Nat) (nm : String) :
    dualsByName ((List.range n).map F).flatten u j0 nm =
      ((List.range n).map (fun a =>
        dualsByName (F a) u (j0 + ((List.range a).map F).flatten.length)
          nm)).flatten := by
  induction n with
  | zero => simp [dualsByName]
  | succ m ih =>
      rw [List.range_succ, List.map_append, List.flatten_append,
        dualsByName_append, ih, List.map_append]
      simp

theorem dotl_append (xs1 ys1 xs2 ys2 : List ℚ) (h : xs1.length = ys1.length) :
    dotl (xs1 ++ xs2) (ys1 ++ ys2) = dotl xs1 ys1 + dotl xs2 ys2 := by
  unfold dotl
  rw [List.zip_append h, List.map_append, List.sum_append]

theorem dotl_map_range (f g : Nat → ℚ) (n : Nat) :
    dotl ((List.range n).map f) ((List.range n).map g) =
      ∑ s in Finset.range n, f s * g s := by
  induction n with
  | zero => simp [dotl]
  | succ m ih =>
      rw [List.range_succ, List.map_append, List.map_append,
        dotl_append _ _ _ _ (by simp), ih, Finset.sum_range_succ]
      simp [dotl]

theorem dotl_flatten_range (f g : Nat → List ℚ) (n : Nat)
    (h : ∀ a, (f a).length = (g a).length) :
    dotl ((List.range n).map f).flatten ((List.range n).map g).flatten =
      ∑ a in Finset.range n, dotl (f a) (g a) := by
  induction n with
  | zero => simp [dotl]
  | succ m ih =>
      rw [List.range_succ, List.map_append, List.map_append,
        List.flatten_append, List.flatten_append,
        dotl_append _ _ _ _ (by
          simp only [List.length_flatten, List.map_map]
          congr 1
          apply List.map_congr_left
          intro a _
          exact h a), ih, Finset.sum_range_succ]
      simp

theorem mem_dualsByName (cs : List Constr) (u : Nat → ℚ) (j0 : Nat)
    (nm : String) (x : ℚ) (hx : x ∈ dualsByName cs u j0 nm) :
    ∃ j, j < cs.length ∧ x = u (j0 + j) ∧
      (cs.getD j ⟨[], Rel.le, 0, ""⟩).cname = nm := by
  induction cs generalizing j0 with
  | nil => cases hx
  | cons c rest ih =>
      by_cases h : c.cname = nm
      · rw [dualsByName, if_pos h] at hx
        rcases List.mem_cons.1 hx with rfl | hx2
        · exact ⟨0, by simp, by simp, by simpa using h⟩
        · obtain ⟨j, hj, hxe, hname⟩ := ih (j0 + 1) hx2
          refine ⟨j + 1, by simpa using hj, by rw [hxe]; congr 1; omega, ?_⟩
          simpa using hname
      · rw [dualsByName, if_neg h] at hx
        obtain ⟨j, hj, hxe, hname⟩ := ih (j0 + 1) hx
        refine ⟨j + 1, by simpa using hj, by rw [hxe]; congr 1; omega, ?_⟩
        simpa using hname

theorem colSumAux_zero (cs : List Constr) (u : Nat → ℚ) (j0 i : Nat)
    (h : ∀ c ∈ cs, coeffIn c.terms i = 0) : colSumAux cs u j0 i = 0 := by
  induction cs generalizing j0 with
  | nil => rfl
  | cons c rest ih =>
      rw [colSumAux, h c (List.mem_cons_self c rest),
        ih (j0 + 1) (fun c2 hc2 => h c2 (List.mem_cons_of_mem c hc2))]
      ring

theorem dualsByName_nil_of (cs : List Constr) (u : Nat → ℚ) (j0 : Nat)
    (nm : String) (h : ∀ c ∈ cs, c.cname ≠ nm) :
    dualsByName cs u j0 nm = [] := by
  induction cs generalizing j0 with
  | nil => rfl
  | cons c rest ih =>
      rw [dualsByName, if_neg (h c (List.mem_cons_self c rest))]
      exact ih (j0 + 1) (fun c2 hc2 => h c2 (List.mem_cons_of_mem c hc2))

theorem flatten_singleton_map {α β : Type} (g : β → α) (l : List β) :
    (l.map (fun x => [g x])).flatten = l.map g := by
  induction l with
  | nil => rfl
  | cons x rest ih => simp [ih]

theorem l1_pairblock_length (z pbar w : numvecvec) (a : Nat) :
    (((List.range (scount pbar a)).map (fun s =>
      [pCon z pbar a s, psiCon pbar w a s])).flatten).length =
      2 * scount pbar a := by
  simp only [List.length_flatten, List.map_map]
  have he : (List.length ∘ fun s => [pCon z pbar a s, psiCon pbar w a s]) =
      fun _ => 2 := by
    funext s; rfl
  rw [he, sum_map_range]
  simp [Finset.sum_const, mul_comm]

theorem l1_loop_prefix_length (z pbar w : numvecvec) (a : Nat) :
    (((List.range a).map (fun a2 =>
      ((List.range (scount pbar a2)).map (fun s =>
        [pCon z pbar a2 s, psiCon pbar w a2 s])).flatten)).flatten).length =
      2 * aofs pbar a := by
  simp only [List.length_flatten, List.map_map]
  have he : ∀ a2 : Nat,
      (List.length ∘ fun a2 =>
        ((List.range (scount pbar a2)).map (fun s =>
          [pCon z pbar a2 s, psiCon pbar w a2 s])).flatten) a2 =
      2 * scount pbar a2 := by
    intro a2
    exact l1_pairblock_length z pbar w a2
  rw [funext he, sum_map_range]
  unfold aofs
  rw [Finset.mul_sum]

theorem coeffIn_pCon_lam (z pbar : numvecvec) (a s : Nat)
    (ha : a < pbar.length) (hs : s < scount pbar a) :
    coeffIn (pCon z pbar a s).terms (lamIdx pbar.length (nsa pbar)) = 0 := by
  have hi := aofs_add_lt pbar a s ha hs
  apply coeffIn_zero
  intro p hp
  unfold pCon at hp
  simp only [List.mem_cons, List.not_mem_nil, or_false] at hp
  rcases hp with rfl | rfl | rfl | rfl <;>
    simp only [xIdx, ypIdx, ynIdx, dIdx, lamIdx] <;> omega

theorem coeffIn_psiCon_lam (pbar w : numvecvec) (a s : Nat)
    (ha : a < pbar.length) (hs : s < scount pbar a) :
    coeffIn (psiCon pbar w a s).terms (lamIdx pbar.length (nsa pbar)) =
      -(wq w a s) := by
  have hi := aofs_add_lt pbar a s ha hs
  unfold psiCon coeffIn
  simp only [List.map_cons, List.map_nil, List.sum_cons, List.sum_nil,
    eq_self_iff_true, if_true]
  rw [if_neg (by simp only [ypIdx, lamIdx]; omega),
    if_neg (by simp only [ynIdx, lamIdx]; omega)]
  ring

theorem colSum_policyCons_lam (pbar : numvecvec) (pe : numvec) (u : Nat → ℚ)
    (j0 : Nat) :
    colSumAux (l1PolicyCons pbar pe) u j0
      (lamIdx pbar.length (nsa pbar)) = 0 := by
  apply colSumAux_zero
  intro c hc
  cases pe with
  | nil =>
      simp only [l1PolicyCons, List.isEmpty_nil, if_true,
        List.mem_singleton] at hc
      subst hc
      apply coeffIn_zero
      intro p hp
      simp only [List.mem_map, List.mem_range] at hp
      obtain ⟨a, _, rfl⟩ := hp
      simp only [dIdx, lamIdx]
      omega
  | cons p0 ps =>
      simp only [l1PolicyCons, List.isEmpty_cons, Bool.false_eq_true,
        if_false, List.mem_map, List.mem_range] at hc
      obtain ⟨a, _, rfl⟩ := hc
      apply coeffIn_zero
      intro p hp
      simp only [List.mem_singleton] at hp
      subst hp
      simp only [dIdx, lamIdx]
      omega

theorem colSum_loop_lam (z pbar w : numvecvec) (u : Nat → ℚ) (j0 : Nat) :
    colSumAux (l1LoopCons z pbar w) u j0 (lamIdx pbar.length (nsa pbar)) =
      -(∑ a in Finset.range pbar.length,
        ∑ s in Finset.range (scount pbar a),
          wq w a s * u (j0 + 2 * aofs pbar a + 2 * s + 1)) := by
  unfold l1LoopCons
  rw [colSumAux_flatten_range]
  have he : ∀ a ∈ Finset.range pbar.length,
      colSumAux (((List.range (scount pbar a)).map (fun s =>
        [pCon z pbar a s, psiCon pbar w a s])).flatten) u
        (j0 + (((List.range a).map (fun a2 =>
          ((List.range (scount pbar a2)).map (fun s =>
            [pCon z pbar a2 s, psiCon pbar w a2 s])).flatten)).flatten).length)
        (lamIdx pbar.length (nsa pbar)) =
      -(∑ s in Finset.range (scount pbar a),
        wq w a s * u (j0 + 2 * aofs pbar a + 2 * s + 1)) := by
    intro a ha
    rw [Finset.mem_range] at ha
    rw [l1_loop_prefix_length z pbar w a, colSumAux_flatten_range]
    have he2 : ∀ s ∈ Finset.range (scount pbar a),
        colSumAux [pCon z pbar a s, psiCon pbar w a s] u
          (j0 + 2 * aofs pbar a +
            (((List.range s).map (fun s2 =>
              [pCon z pbar a s2, psiCon pbar w a s2])).flatten).length)
          (lamIdx pbar.length (nsa pbar)) =
        -(wq w a s * u (j0 + 2 * aofs pbar a + 2 * s + 1)) := by
      intro s hs
      rw [Finset.mem_range] at hs
      have hlen : (((List.range s).map (fun s2 =>
          [pCon z pbar a s2, psiCon pbar w a s2])).flatten).length = 2 * s := by
        simp only [List.length_flatten, List.map_map]
        have he3 : (List.length ∘ fun s2 =>
            [pCon z pbar a s2, psiCon pbar w a s2]) = fun _ => 2 := by
          funext s2; rfl
        rw [he3, sum_map_range]
        simp [Finset.sum_const, mul_comm]
      rw [hlen]
      simp only [colSumAux]
      rw [coeffIn_pCon_lam z pbar a s ha hs,
        coeffIn_psiCon_lam pbar w a s ha hs]
      ring
    rw [Finset.sum_congr rfl he2, Finset.sum_neg_distrib]
  rw [Finset.sum_congr rfl he, Finset.sum_neg_distrib]

theorem dualsByName_pair (z pbar w : numvecvec) (a s2 : Nat) (u : Nat → ℚ)
    (j : Nat) :
    dualsByName [pCon z pbar a s2, psiCon pbar w a s2] u j "psi" =
      [u (j + 1)] := by
  have h1 : ("P" : String) ≠ "psi" := by decide
  simp [dualsByName, pCon, psiCon, h1]

theorem l1_policy_names (pbar : numvecvec) (pe : numvec) :
    ∀ c ∈ l1PolicyCons pbar pe, c.cname ≠ "psi" := by
  intro c hc
  cases pe with
  | nil =>
      simp only [l1PolicyCons, List.isEmpty_nil, if_true,
        List.mem_singleton] at hc
      subst hc
      have h : ("pi" : String) ≠ "psi" := by decide
      exact h
  | cons p0 ps =>
      simp only [l1PolicyCons, List.isEmpty_cons, Bool.false_eq_true,
        if_false, List.mem_map, List.mem_range] at hc
      obtain ⟨i, _, rfl⟩ := hc
      have h : ("" : String) ≠ "psi" := by decide
      exact h

theorem l1_budgets_formula (z pbar w : numvecvec) (kappa : ℚ) (pe : numvec)
    (s : Sol) :
    l1_budgets (srect_l1_model z pbar w kappa pe) s =
    ((List.range pbar.length).map (fun a =>
      (List.range (scount pbar a)).map (fun s2 =>
        s.piv ((l1PolicyCons pbar pe).length + 2 * aofs pbar a +
          2 * s2 + 1)))).flatten := by
  unfold l1_budgets srect_l1_model
  dsimp only
  rw [dualsByName_append, dualsByName_nil_of _ _ _ _ (l1_policy_names pbar pe),
    List.nil_append, Nat.zero_add]
  unfold l1LoopCons
  rw [dualsByName_flatten_range]
  congr 1
  apply List.map_congr_left
  intro a _
  rw [l1_loop_prefix_length z pbar w a, dualsByName_flatten_range]
  have he2 : ∀ s2 ∈ List.range (scount pbar a),
      dualsByName [pCon z pbar a s2, psiCon pbar w a s2] s.piv
        ((l1PolicyCons pbar pe).length + 2 * aofs pbar a +
          (((List.range s2).map (fun s3 =>
            [pCon z pbar a s3, psiCon pbar w a s3])).flatten).length) "psi" =
      [s.piv ((l1PolicyCons pbar pe).length + 2 * aofs pbar a +
        2 * s2 + 1)] := by
    intro s2 _
    have hlen : (((List.range s2).map (fun s3 =>
        [pCon z pbar a s3, psiCon pbar w a s3])).flatten).length = 2 * s2 := by
      simp only [List.length_flatten, List.map_map]
      have he3 : (List.length ∘ fun s3 =>
          [pCon z pbar a s3, psiCon pbar w a s3]) = fun _ => 2 := by
        funext s3; rfl
      rw [he3, sum_map_range]
      simp [Finset.sum_const, mul_comm]
    rw [hlen, dualsByName_pair]
  rw [List.map_congr_left he2, flatten_singleton_map]

theorem objCoeff_l1_lam (z pbar w : numvecvec) (kappa : ℚ) (pe : numvec) :
    objCoeff (srect_l1_model z pbar w kappa pe)
      (lamIdx pbar.length (nsa pbar)) = -kappa := by
  unfold objCoeff srect_l1_model srectObjTerms
  dsimp only
  rw [coeffIn_append]
  have h0 : coeffIn (((List.range pbar.length).map (fun a =>
      (xIdx a, (1 : ℚ)) :: ((List.range (scount pbar a)).map (fun s =>
        [(ypIdx pbar.length (aofs pbar a + s), -(zq pbar a s)),
         (ynIdx pbar.length (nsa pbar) (aofs pbar a + s),
           zq pbar a s)])).flatten)).flatten)
      (lamIdx pbar.length (nsa pbar)) = 0 := by
    apply coeffIn_zero
    intro p hp
    simp only [List.mem_flatten, List.mem_map, List.mem_range] at hp
    obtain ⟨l, ⟨a, ha, rfl⟩, hp⟩ := hp
    rcases List.mem_cons.1 hp with rfl | hp
    · simp only [xIdx, lamIdx]; omega
    · simp only [List.mem_flatten, List.mem_map, List.mem_range] at hp
      obtain ⟨l2, ⟨s, hs, rfl⟩, hp⟩ := hp
      have hi := aofs_add_lt pbar a s ha hs
      simp only [List.mem_cons, List.not_mem_nil, or_false] at hp
      rcases hp with rfl | rfl <;>
        simp only [ypIdx, ynIdx, lamIdx] <;> omega
  rw [h0, zero_add]
  unfold coeffIn
  simp only [List.map_cons, List.map_nil, List.sum_cons, List.sum_nil,
    eq_self_iff_true, if_true]
  ring

theorem l1_weighted_sum (z pbar w : numvecvec) (kappa : ℚ) (pe : numvec)
    (s : Sol) :
    dotl (psiWeights pbar w) (l1_budgets (srect_l1_model z pbar w kappa pe) s)
      = -(colSum (srect_l1_model z pbar w kappa pe) s.piv
          (lamIdx pbar.length (nsa pbar))) := by
  rw [l1_budgets_formula]
  unfold psiWeights colSum srect_l1_model
  dsimp only
  rw [colSumAux_append, colSum_policyCons_lam, colSum_loop_lam, zero_add,
    Nat.zero_add]
  rw [dotl_flatten_range _ _ _ (by intro a; simp)]
  rw [neg_neg]
  apply Finset.sum_congr rfl
  intro a _
  rw [dotl_map_range]

theorem psi_rows_le (z pbar w : numvecvec) (kappa : ℚ) (pe : numvec) :
    ∀ c ∈ (srect_l1_model z pbar w kappa pe).constrs,
      c.cname = "psi" → c.rel = Rel.le := by
  intro c hc hn
  rcases List.mem_append.1 hc with hp | hl
  · exact absurd hn (l1_policy_names pbar pe c hp)
  · obtain ⟨a, _, s, _, h2 | h2⟩ := (mem_l1LoopCons_iff z pbar w c).1 hl <;>
      subst h2 <;> rfl

theorem theta_rows_le (z pbar : numvecvec) (kappa : ℚ) (w : numvecvec) :
    ∀ c ∈ (srect_linf_model z pbar kappa w).constrs,
      c.cname = "theta" → c.rel = Rel.le := by
  intro c hc hn
  rcases List.mem_append.1 hc with hl | hp
  · obtain ⟨a, _, ⟨s, _, h2⟩ | h2⟩ := (mem_linfLoop_iff z pbar c).1 hl <;>
      subst h2 <;> rfl
  · simp only [List.mem_singleton] at hp
    subst hp
    have h : ("policy" : String) ≠ "theta" := by decide
    exact absurd hn h

/-- C9: under the dual-side optimality guarantees of the LP solver (dual
feasibility of the reported `Pi` values, and complementary slackness with
the reported primal point), every entry of the returned budgets is
non-negative — for both operations — and for L1 the `w`-weighted sum of
the budgets never exceeds `kappa`, with equality whenever the optimal
`lambda` is strictly positive. -/
theorem budgets_dual_properties :
    (∀ (z pbar w : numvecvec) (kappa : ℚ) (pe : numvec) (s : Sol),
      DualFeasible (srect_l1_model z pbar w kappa pe) s.piv →
      (∀ b ∈ l1_budgets (srect_l1_model z pbar w kappa pe) s, 0 ≤ b) ∧
      dotl (psiWeights pbar w)
        (l1_budgets (srect_l1_model z pbar w kappa pe) s) ≤ kappa ∧
      (∀ v : Nat → ℚ,
        ComplSlack (srect_l1_model z pbar w kappa pe) v s.piv →
        0 < v (lamIdx pbar.length (nsa pbar)) →
        dotl (psiWeights pbar w)
          (l1_budgets (srect_l1_model z pbar w kappa pe) s) = kappa)) ∧
    (∀ (z pbar : numvecvec) (kappa : ℚ) (w : numvecvec) (s : Sol),
      DualFeasible (srect_linf_model z pbar kappa w) s.piv →
      ∀ b ∈ linf_budgets pbar.length (srect_linf_model z pbar kappa w) s,
        0 ≤ b) := by
  constructor
  · intro z pbar w kappa pe s hDF
    have hlt : lamIdx pbar.length (nsa pbar) <
        (srect_l1_model z pbar w kappa pe).vars.length := by
      show lamIdx pbar.length (nsa pbar) <
        (srectVars pbar.length (nsa pbar)).length
      rw [srectVars_length]
      unfold lamIdx
      omega
    have hgetD : (srect_l1_model z pbar w kappa pe).vars.getD
        (lamIdx pbar.length (nsa pbar)) ⟨none, none⟩ = ⟨some 0, none⟩ := by
      show (srectVars pbar.length (nsa pbar)).getD _ _ = _
      apply srectVars_getD_pos <;> (unfold lamIdx; omega)
    refine ⟨?_, ?_, ?_⟩
    · intro b hb
      obtain ⟨j, hj, rfl, hname⟩ :=
        mem_dualsByName (srect_l1_model z pbar w kappa pe).constrs s.piv 0
          "psi" b hb
      have hcm : (srect_l1_model z pbar w kappa pe).constrs.getD j
          ⟨[], Rel.le, 0, ""⟩ ∈ (srect_l1_model z pbar w kappa pe).constrs := by
        rw [List.getD_eq_getElem _ _ hj]
        exact List.getElem_mem hj
      have hle := psi_rows_le z pbar w kappa pe _ hcm hname
      have hnn := hDF.1 j hj hle
      simpa using hnn
    · have hcol := (hDF.2 (lamIdx pbar.length (nsa pbar)) hlt).2
        (by rw [hgetD]; simp)
      rw [objCoeff_l1_lam] at hcol
      have hws := l1_weighted_sum z pbar w kappa pe s
      linarith
    · intro v hcs hpos
      have hcol := hcs (lamIdx pbar.length (nsa pbar)) hlt
        (by rw [hgetD]; simpa using hpos)
      rw [objCoeff_l1_lam] at hcol
      have hws := l1_weighted_sum z pbar w kappa pe s
      linarith
  · intro z pbar kappa w s hDF b hb
    unfold linf_budgets at hb
    rcases List.mem_append.1 hb with ht | hr
    · have ht2 := List.take_subset _ _ ht
      obtain ⟨j, hj, rfl, hname⟩ :=
        mem_dualsByName (srect_linf_model z pbar kappa w).constrs s.piv 0
          "theta" _ ht2
      have hcm : (srect_linf_model z pbar kappa w).constrs.getD j
          ⟨[], Rel.le, 0, ""⟩ ∈ (srect_linf_model z pbar kappa w).constrs := by
        rw [List.getD_eq_getElem _ _ hj]
        exact List.getElem_mem hj
      have hle := theta_rows_le z pbar kappa w _ hcm hname
      have hnn := hDF.1 j hj hle
      simpa using hnn
    · rw [List.eq_of_mem_replicate hr]

theorem one_constrs : (srect_l1_model zOne pbarOne [] 1 []).constrs =
    [⟨[(4, 1)], Rel.eq, 1, "pi"⟩,
     ⟨[(0, 1), (1, -1), (2, 1), (4, -1)], Rel.le, 0, "P"⟩,
     ⟨[(3, -1), (1, 1), (2, 1)], Rel.le, 0, "psi"⟩] := rfl

theorem one_objTerms : (srect_l1_model zOne pbarOne [] 1 []).objTerms =
    [(0, 1), (1, -1), (2, 1), (3, -1)] := rfl

theorem one_vars : (srect_l1_model zOne pbarOne [] 1 []).vars =
    [⟨none, none⟩, ⟨some 0, none⟩, ⟨some 0, none⟩, ⟨some 0, none⟩,
     ⟨some 0, none⟩] := rfl

theorem dfOne : DualFeasible (srect_l1_model zOne pbarOne [] 1 []) uOne := by
  constructor
  · intro j hj _
    norm_num [uOne]
  · intro i hi
    rw [one_vars] at hi
    norm_num at hi
    have hcol : ∀ k : Nat, colSum (srect_l1_model zOne pbarOne [] 1 []) uOne k
        = colSumAux [⟨[(4, 1)], Rel.eq, 1, "pi"⟩,
            ⟨[(0, 1), (1, -1), (2, 1), (4, -1)], Rel.le, 0, "P"⟩,
            ⟨[(3, -1), (1, 1), (2, 1)], Rel.le, 0, "psi"⟩] uOne 0 k := by
      intro k
      unfold colSum
      rw [one_constrs]
    have hob : ∀ k : Nat, objCoeff (srect_l1_model zOne pbarOne [] 1 []) k =
        coeffIn [(0, 1), (1, -1), (2, 1), (3, -1)] k := by
      intro k
      unfold objCoeff
      rw [one_objTerms]
    rw [one_vars]
    interval_cases i <;> constructor <;> intro h <;>
      first
      | exact absurd h (by decide)
      | (rw [hcol, hob]
         norm_num [colSumAux, coeffIn, uOne])

theorem csOne : ComplSlack (srect_l1_model zOne pbarOne [] 1 []) vOne uOne := by
  intro i hi hlt
  rw [one_vars] at hi
  norm_num at hi
  have hcol : ∀ k : Nat, colSum (srect_l1_model zOne pbarOne [] 1 []) uOne k
      = colSumAux [⟨[(4, 1)], Rel.eq, 1, "pi"⟩,
          ⟨[(0, 1), (1, -1), (2, 1), (4, -1)], Rel.le, 0, "P"⟩,
          ⟨[(3, -1), (1, 1), (2, 1)], Rel.le, 0, "psi"⟩] uOne 0 k := by
    intro k
    unfold colSum
    rw [one_constrs]
  have hob : ∀ k : Nat, objCoeff (srect_l1_model zOne pbarOne [] 1 []) k =
      coeffIn [(0, 1), (1, -1), (2, 1), (3, -1)] k := by
    intro k
    unfold objCoeff
    rw [one_objTerms]
  rw [one_vars] at hlt
  interval_cases i <;>
    first
    | exact absurd hlt (by decide)
    | (rw [hcol, hob]
       norm_num [colSumAux, coeffIn, uOne])

/-- Witness for the dual-properties theorem: at the one-action instance
with `kappa = 1` there is a primal-dual pair with `lambda = 1 > 0`, and the
weighted sum of the returned budgets is exactly `kappa = 1`. -/
theorem budgets_dual_properties_witness :
    dotl (psiWeights pbarOne [])
      (l1_budgets (srect_l1_model zOne pbarOne [] 1 []) solOne) = 1 :=
  (budgets_dual_properties.1 zOne pbarOne [] 1 [] solOne dfOne).2.2 vOne
    csOne (by norm_num [vOne, lamIdx, nsa, scount, pbarOne,
      Finset.sum_range_succ])

end craam
